import Mathlib

/-!
# FileExplorerQt: recursive copy, paste and navigation

A shallow embedding of `src/mainwindow.cpp` / `src/mainwindow.h`.

* The file system the program acts on is an explicit value (`FS`), a finite
  store from absolute, normalised paths (lists of components) to entries.
  An entry is a regular file or a directory; an entry whose name starts
  with a dot is hidden, and `entryInfoList`, which the program calls without
  `QDir::Hidden`, leaves it out. Symbolic links and system entries (devices,
  sockets) are not modelled.
* The Qt calls the program makes (`QFile::exists`, `QFile::remove`,
  `QFile::copy`, `QDir::exists`, `QDir::mkpath`, `QDir::entryInfoList`,
  `QDir::removeRecursively`, `QDir::mkdir`, `QFile::rename`, `QDir::cdUp`) are
  functions on a `World`: the file system together with a journal of the
  mutating/listing calls made so far and their outcome.  A `Provider` decides
  which calls the environment refuses (permissions, full disk, ...); a call
  also fails when the file system itself forbids it (`QFile::copy` never
  overwrites, `QFile::remove` only unlinks files, `mkpath` cannot pass through
  a file).  A refused or failed call changes nothing.
* `copyRecursively` is not terminating in general (a directory pasted inside
  itself keeps descending), so it carries a recursion budget; `none` is
  "did not return within that many nested calls".
-/

namespace FileExplorer


/-! ## File system -/

/-- An absolute, normalised path: the list of its components; `[]` is the root. -/
abbrev Path := List String

/-- What a path names. -/
inductive Entry where
  | file (content : String)
  | dir
  deriving DecidableEq, Repr

/-- The file system: a finite store of entries; the first binding of a path counts. -/
abbrev FS := List (Path × Entry)

/-- First binding of `p` in the store. -/
def FS.find : FS → Path → Option Entry
  | [], _ => none
  | (k, e) :: rest, p => if k = p then some e else FS.find rest p

/-- Entry named by `p`; the root always is a directory. -/
def FS.stat (fs : FS) (p : Path) : Option Entry :=
  if p = [] then some Entry.dir else fs.find p

/-- Does `p` name a directory. -/
def FS.isDir (fs : FS) (p : Path) : Bool :=
  match fs.stat p with
  | some Entry.dir => true
  | _ => false

/-- Does `p` name a regular file. -/
def FS.isFile (fs : FS) (p : Path) : Bool :=
  match fs.stat p with
  | some (Entry.file _) => true
  | _ => false

/-- Does `p` name anything. -/
def FS.exist (fs : FS) (p : Path) : Bool :=
  (fs.stat p).isSome

/-- Drop every binding of `p`. -/
def FS.erase (fs : FS) (p : Path) : FS :=
  fs.filter (fun x => decide (x.1 ≠ p))

/-- Bind `p` to `e`, replacing what was there. -/
def FS.put (fs : FS) (p : Path) (e : Entry) : FS :=
  fs.erase p ++ [(p, e)]

/-- Create a directory at each path of `qs` that names nothing yet. -/
def FS.addDirs (fs : FS) : List Path → FS
  | [] => fs
  | q :: qs => FS.addDirs (if fs.stat q = none then fs.put q Entry.dir else fs) qs

/-- Names bound directly under `p` (with repetitions, in store order). -/
def FS.names (fs : FS) (p : Path) : List String :=
  fs.filterMap (fun x => if x.1.dropLast = p then x.1.getLast? else none)

/-- A name the listing hides unless `QDir::Hidden` is passed: one that starts
with a dot. -/
def hidden (n : String) : Bool :=
  match n.data with
  | '.' :: _ => true
  | _ => false

/-- What the default sort of a listing (`QDir::Name | QDir::IgnoreCase`)
compares: the name with its letters in lower case. -/
def sortKey (n : String) : List Char := n.data.map Char.toLower

/-- Sort names the way a listing does. -/
def sortNames (ns : List String) : List String :=
  ns.insertionSort (fun a b => sortKey a ≤ sortKey b)

/-- Names of the regular files directly under `p` that a listing shows:
not the hidden ones, sorted by name. -/
def FS.fileNames (fs : FS) (p : Path) : List String :=
  sortNames ((fs.names p).dedup.filter (fun n => !hidden n && fs.isFile (p ++ [n])))

/-- Names of the subdirectories directly under `p` that a listing shows:
not the hidden ones, sorted by name. -/
def FS.dirNames (fs : FS) (p : Path) : List String :=
  sortNames ((fs.names p).dedup.filter (fun n => !hidden n && fs.isDir (p ++ [n])))

/-- Every stored path other than the root has a directory as its parent. -/
def FS.WF (fs : FS) : Prop :=
  ∀ x ∈ fs, x.1 ≠ [] → fs.isDir x.1.dropLast = true

instance (fs : FS) : Decidable fs.WF := by
  unfold FS.WF; infer_instance

/-- Length of the longest stored path. -/
def FS.depth (fs : FS) : Nat :=
  (fs.map (fun x => x.1.length)).foldr max 0

/-! ## Provider: the Qt calls, with failure -/

/-- The calls that touch the disk. -/
inductive Op where
  | mkpath (p : Path)
  | mkdir (p : Path)
  | remove (p : Path)
  | rmdir (p : Path)
  | copy (src dst : Path)
  | rename (old new : Path)
  | list (p : Path)
  deriving DecidableEq, Repr

/-- One journal line: the call and whether it reported success. -/
structure Event where
  op : Op
  ok : Bool
  deriving DecidableEq, Repr

/-- The file system and the journal of calls made on it. -/
structure World where
  fs : FS
  log : List Event
  deriving DecidableEq, Repr

/-- The environment: which call it refuses in which situation. -/
structure Provider where
  refuses : World → Op → Bool
  homePath : Path

/-- The provider that never refuses a call. -/
def Provider.reliable : Provider := ⟨fun _ _ => false, ["home"]⟩

/-- Leave the file system as it is and journal a failed call. -/
def World.failed (w : World) (op : Op) : World :=
  ⟨w.fs, w.log ++ [⟨op, false⟩]⟩

/-- Install the new file system and journal a successful call. -/
def World.done (w : World) (fs : FS) (op : Op) : World :=
  ⟨fs, w.log ++ [⟨op, true⟩]⟩

/-- `QFile::exists(path)` and `QFileInfo::exists`: something is there. -/
def QFile.exists (w : World) (p : Path) : Bool := w.fs.exist p

/-- `QDir(path).exists()`: a directory is there. -/
def QDir.exists (w : World) (p : Path) : Bool := w.fs.isDir p

/-- `QFileInfo(path).isDir()`. -/
def QFileInfo.isDir (w : World) (p : Path) : Bool := w.fs.isDir p

/-- `QFile::remove(path)`: unlinks a regular file. -/
def QFile.remove (P : Provider) (w : World) (p : Path) : Bool × World :=
  if w.fs.isFile p && !P.refuses w (Op.remove p) then
    (true, w.done (w.fs.erase p) (Op.remove p))
  else (false, w.failed (Op.remove p))

/-- `QFile::copy(src, dst)`: `src` must be a regular file, `dst` must not
exist (it is never overwritten) and the directory of `dst` must exist. -/
def QFile.copy (P : Provider) (w : World) (src dst : Path) : Bool × World :=
  match w.fs.stat src with
  | some (Entry.file c) =>
    if !w.fs.exist dst && w.fs.isDir dst.dropLast && !P.refuses w (Op.copy src dst) then
      (true, w.done (w.fs.put dst (Entry.file c)) (Op.copy src dst))
    else (false, w.failed (Op.copy src dst))
  | _ => (false, w.failed (Op.copy src dst))

/-- `QDir(path).mkpath(".")`: creates the directory and every missing parent;
fails when a component on the way is a regular file. -/
def QDir.mkpath (P : Provider) (w : World) (p : Path) : Bool × World :=
  if p.inits.all (fun q => !w.fs.isFile q) && !P.refuses w (Op.mkpath p) then
    (true, w.done (w.fs.addDirs p.inits) (Op.mkpath p))
  else (false, w.failed (Op.mkpath p))

/-- `QDir(path).mkdir(name)`: creates one directory, no parents. -/
def QDir.mkdir (P : Provider) (w : World) (p : Path) (name : String) : Bool × World :=
  if w.fs.isDir p && !w.fs.exist (p ++ [name]) && !P.refuses w (Op.mkdir (p ++ [name])) then
    (true, w.done (w.fs.put (p ++ [name]) Entry.dir) (Op.mkdir (p ++ [name])))
  else (false, w.failed (Op.mkdir (p ++ [name])))

/-- The two filters the program lists with. -/
inductive Filter where
  | Files
  | Dirs
  deriving DecidableEq, Repr

/-- `QDir(path).entryInfoList(QDir::Files)` and
`entryInfoList(QDir::Dirs | QDir::NoDotAndDotDot)`, as entry names: neither
call passes `QDir::Hidden`, so hidden entries are left out, and the names come
sorted (`QDir::Name | QDir::IgnoreCase`, the default); a directory that
cannot be read lists as empty. -/
def QDir.entryInfoList (P : Provider) (w : World) (p : Path) (f : Filter) :
    List String × World :=
  if w.fs.isDir p && !P.refuses w (Op.list p) then
    (match f with
      | Filter.Files => w.fs.fileNames p
      | Filter.Dirs => w.fs.dirNames p,
     w.done w.fs (Op.list p))
  else ([], w.failed (Op.list p))

/-- `QFile::rename(old, new)`: moves a file or a whole directory; never
overwrites. -/
def QFile.rename (P : Provider) (w : World) (old new : Path) : Bool × World :=
  if w.fs.exist old && old != [] && !w.fs.exist new && w.fs.isDir new.dropLast
      && !decide (old <+: new) && !P.refuses w (Op.rename old new) then
    (true, w.done
      (w.fs.map (fun x => if old <+: x.1 then (new ++ x.1.drop old.length, x.2) else x))
      (Op.rename old new))
  else (false, w.failed (Op.rename old new))

/-- One removal inside `removeRecursively`: a file is unlinked, a directory is
removed once it is empty. -/
def removeEntry (P : Provider) (w : World) (p : Path) : Bool × World :=
  match w.fs.stat p with
  | some (Entry.file _) => QFile.remove P w p
  | some Entry.dir =>
    if p != [] && (w.fs.names p).isEmpty && !P.refuses w (Op.rmdir p) then
      (true, w.done (w.fs.erase p) (Op.rmdir p))
    else (false, w.failed (Op.rmdir p))
  | none => (true, w)

/-- Remove the listed paths one after the other, going on after a failure. -/
def removeAll (P : Provider) : List Path → World → Bool × World
  | [], w => (true, w)
  | p :: ps, w =>
    let r := removeEntry P w p
    let rest := removeAll P ps r.2
    (r.1 && rest.1, rest.2)

/-- `QDir(path).removeRecursively()`: everything at and below `p`, deepest
first; keeps going after a failure and then reports it. -/
def QDir.removeRecursively (P : Provider) (w : World) (p : Path) : Bool × World :=
  let victims := ((w.fs.map (fun x => x.1)).dedup.filter (fun k => decide (p <+: k)))
  let ordered := ((List.range (w.fs.depth + 1)).reverse).flatMap
    (fun d => victims.filter (fun k => k.length == d))
  removeAll P ordered w

/-! ## The program -/

/-- The file loop of `copyRecursively` (lines 224-233) over the listed names. -/
def copyFiles (P : Provider) (srcPath dstPath : Path) : List String → World → Bool × World
  | [], w => (true, w)
  | n :: ns, w =>
    let srcFilePath := srcPath ++ [n]
    let dstFilePath := dstPath ++ [n]
    let w1 := if QFile.exists w dstFilePath then (QFile.remove P w dstFilePath).2 else w
    match QFile.copy P w1 srcFilePath dstFilePath with
    | (false, w2) => (false, w2)
    | (true, w2) => copyFiles P srcPath dstPath ns w2

/-- The subdirectory loop of `copyRecursively` (lines 236-242); `recurse` is
the recursive call. -/
def copyDirs (recurse : World → Path → Path → Option (Bool × World))
    (srcPath dstPath : Path) : List String → World → Option (Bool × World)
  | [], w => some (true, w)
  | n :: ns, w =>
    match recurse w (srcPath ++ [n]) (dstPath ++ [n]) with
    | none => none
    | some (false, w1) => some (false, w1)
    | some (true, w1) => copyDirs recurse srcPath dstPath ns w1

/-- Lines 216-221 of `copyRecursively`: create the destination directory
unless it is there. -/
def ensureDir (P : Provider) (w : World) (dstPath : Path) : Bool × World :=
  if QDir.exists w dstPath then (true, w) else QDir.mkpath P w dstPath

/-- `copyRecursively(srcPath, dstPath)` (lines 211-245).  The first argument
bounds the nesting of recursive calls. -/
def copyRecursively (P : Provider) : Nat → World → Path → Path → Option (Bool × World)
  | 0, _, _, _ => none
  | fuel + 1, w, srcPath, dstPath =>
    if !QDir.exists w srcPath then some (false, w)
    else
      let r0 := ensureDir P w dstPath
      if !r0.1 then some (false, r0.2)
      else
        let l1 := QDir.entryInfoList P r0.2 srcPath Filter.Files
        let r1 := copyFiles P srcPath dstPath l1.1 l1.2
        if !r1.1 then some (false, r1.2)
        else
          let l2 := QDir.entryInfoList P r1.2 srcPath Filter.Dirs
          copyDirs (copyRecursively P fuel) srcPath dstPath l2.1 l2.2

/-- The window: the two views' indices, the status bar, the message boxes
shown so far, the clipboard fields of `mainwindow.h` and the world. -/
structure MainWindow where
  world : World
  rootIndex : Option Path
  currentIndex : Option Path
  treeCurrent : Option Path
  statusMessage : String
  shown : List String
  copiedPath : Option Path
  copyIsCut : Bool
  deriving DecidableEq, Repr

/-- The window as the constructor leaves it (lines 18-120, field
initialisers of `mainwindow.h`): both views at the model root, nothing
selected, empty clipboard, mode Copy. -/
def MainWindow.init (w : World) : MainWindow :=
  { world := w, rootIndex := none, currentIndex := none, treeCurrent := none,
    statusMessage := "Ready", shown := [], copiedPath := none, copyIsCut := false }

/-- A path as text. -/
def pathString (p : Path) : String := "/" ++ "/".intercalate p

/-- `QFileInfo(path).fileName()` as the components it adds to a directory:
the last component; nothing for the root. -/
def fileName (p : Path) : List String :=
  match p.getLast? with
  | some n => [n]
  | none => []

/-- `fileModel->filePath(index)` as a directory to build paths from: the
invalid index gives the empty string, so paths built from it start at the root. -/
def filePath (index : Option Path) : Path :=
  match index with
  | some p => p
  | none => []

/-- `model->index(path)`: valid when the path names something. -/
def modelIndex (w : World) (p : Path) : Option Path :=
  if w.fs.exist p then some p else none

/-- `dirModel->index(path)`: the tree only holds directories. -/
def dirModelIndex (w : World) (p : Path) : Option Path :=
  if w.fs.isDir p then some p else none

/-- `QDir(path).cdUp()`: the parent when there is one and it exists. -/
def QDir.cdUp (w : World) (p : Path) : Option Path :=
  if p != [] && QDir.exists w p.dropLast then some p.dropLast else none

/-- The lines 61-66 and 101-106: select `path` in the tree when it has an index there. -/
def syncTree (s : MainWindow) (path : Path) : MainWindow :=
  match dirModelIndex s.world path with
  | some i => { s with treeCurrent := some i }
  | none => s

/-- The `Up` action (lines 90-110). -/
def upAction (s : MainWindow) : MainWindow :=
  match s.rootIndex with
  | none => s
  | some currentPath =>
    match QDir.cdUp s.world currentPath with
    | some parentPath =>
      let s1 := { s with rootIndex := modelIndex s.world parentPath }
      let s2 := syncTree s1 parentPath
      { s2 with statusMessage := pathString parentPath }
    | none => s

/-- The double-click handler of the table (lines 51-71). -/
def tableDoubleClicked (s : MainWindow) (path : Path) : MainWindow :=
  if QFileInfo.isDir s.world path then
    let s1 := { s with rootIndex := modelIndex s.world path, statusMessage := pathString path }
    syncTree s1 path
  else s

/-- `MainWindow::onTreeClicked` (lines 122-141). -/
def onTreeClicked (s : MainWindow) (path : Path) : MainWindow :=
  if QFileInfo.isDir s.world path then
    { s with rootIndex := modelIndex s.world path, statusMessage := pathString path }
  else
    let parentPath := path.dropLast
    let s1 := { s with rootIndex := modelIndex s.world parentPath }
    let s2 := match modelIndex s.world path with
      | some i => { s1 with currentIndex := some i }
      | none => s1
    { s2 with statusMessage := pathString path }

/-- `MainWindow::createNewFolder` (lines 142-157); `answer` is what the input
dialog returns (`none`: cancelled). -/
def createNewFolder (P : Provider) (s : MainWindow) (answer : Option String) : MainWindow :=
  let path := match s.rootIndex with
    | some p => p
    | none => P.homePath
  match answer with
  | some folderName =>
    if folderName ≠ "" then
      let r := QDir.mkdir P s.world path folderName
      if r.1 then { s with world := r.2 }
      else { s with world := r.2, shown := s.shown ++ ["Failed to create folder."] }
    else s
  | none => s

/-- `MainWindow::renameItem` (lines 159-176). -/
def renameItem (P : Provider) (s : MainWindow) (answer : Option String) : MainWindow :=
  match s.currentIndex with
  | none => s
  | some oldPath =>
    match answer with
    | some newName =>
      if newName ≠ "" then
        let newPath := oldPath.dropLast ++ [newName]
        let r := QFile.rename P s.world oldPath newPath
        if r.1 then { s with world := r.2 }
        else { s with world := r.2, shown := s.shown ++ ["Failed to rename."] }
      else s
    | none => s

/-- `MainWindow::deleteItem` (lines 178-201); `yes` is the answer to the question box. -/
def deleteItem (P : Provider) (s : MainWindow) (yes : Bool) : MainWindow :=
  match s.currentIndex with
  | none => s
  | some path =>
    if yes then
      if QFileInfo.isDir s.world path then
        let r := QDir.removeRecursively P s.world path
        if r.1 then { s with world := r.2 }
        else { s with world := r.2, shown := s.shown ++ ["Failed to delete folder."] }
      else
        let r := QFile.remove P s.world path
        if r.1 then { s with world := r.2 }
        else { s with world := r.2, shown := s.shown ++ ["Failed to delete file."] }
    else s

/-- `MainWindow::copyItem` (lines 203-209). -/
def copyItem (s : MainWindow) : MainWindow :=
  match s.currentIndex with
  | none => s
  | some path =>
    { s with copiedPath := some path, copyIsCut := false,
             statusMessage := "Copied: " ++ pathString path }

/-- The three ways out of `pasteItem`. -/
inductive PasteOutcome where
  | emptyClipboard
  | failed
  | pasted
  deriving DecidableEq, Repr

/-- `MainWindow::pasteItem` (lines 247-278), with the exit it took. -/
def pasteItem (P : Provider) (fuel : Nat) (s : MainWindow) :
    Option (PasteOutcome × MainWindow) :=
  match s.copiedPath with
  | none => some (PasteOutcome.emptyClipboard, s)
  | some copied =>
    let destDir := filePath s.rootIndex
    let newPath := destDir ++ fileName copied
    if QFileInfo.isDir s.world copied then
      match copyRecursively P fuel s.world copied newPath with
      | none => none
      | some (false, w) =>
        some (PasteOutcome.failed,
          { s with world := w, shown := s.shown ++ ["Failed to copy folder."] })
      | some (true, w) =>
        let w1 := if s.copyIsCut then (QDir.removeRecursively P w copied).2 else w
        some (PasteOutcome.pasted,
          { s with world := w1, statusMessage := "Pasted to: " ++ pathString destDir })
    else
      let w0 := if QFile.exists s.world newPath then (QFile.remove P s.world newPath).2
        else s.world
      match QFile.copy P w0 copied newPath with
      | (false, w) =>
        some (PasteOutcome.failed,
          { s with world := w, shown := s.shown ++ ["Failed to copy file."] })
      | (true, w) =>
        let w1 := if s.copyIsCut then (QFile.remove P w copied).2 else w
        some (PasteOutcome.pasted,
          { s with world := w1, statusMessage := "Pasted to: " ++ pathString destDir })

/-- `MainWindow::showProperties` (lines 280-296): one information box. -/
def showProperties (s : MainWindow) : MainWindow :=
  match s.currentIndex with
  | none => s
  | some path => { s with shown := s.shown ++ ["Properties: " ++ pathString path] }

/-- One user action on the window: a slot of the program, or the table
view changing its current row. -/
inductive Step (P : Provider) : MainWindow → MainWindow → Prop where
  | select (s : MainWindow) (i : Option Path) : Step P s { s with currentIndex := i }
  | treeClicked (s : MainWindow) (path : Path) :
      Step P s (onTreeClicked { s with treeCurrent := some path } path)
  | doubleClicked (s : MainWindow) (path : Path) : Step P s (tableDoubleClicked s path)
  | up (s : MainWindow) : Step P s (upAction s)
  | newFolder (s : MainWindow) (answer : Option String) : Step P s (createNewFolder P s answer)
  | rename (s : MainWindow) (answer : Option String) : Step P s (renameItem P s answer)
  | delete (s : MainWindow) (yes : Bool) : Step P s (deleteItem P s yes)
  | copy (s : MainWindow) : Step P s (copyItem s)
  | paste (s : MainWindow) (fuel : Nat) (o : PasteOutcome) (t : MainWindow)
      (h : pasteItem P fuel s = some (o, t)) : Step P s t
  | properties (s : MainWindow) : Step P s (showProperties s)

/-- The states the window can be in: from start-up on any file system, after
any number of actions. -/
inductive Reachable (P : Provider) : MainWindow → Prop where
  | start (fs : FS) : Reachable P (MainWindow.init ⟨fs, []⟩)
  | next (s t : MainWindow) (hs : Reachable P s) (h : Step P s t) : Reachable P t

/-! ## Predicates of the statements -/

/-- Path `q` lies strictly beneath `a`. -/
def Below (a q : Path) : Prop := a <+: q ∧ a ≠ q

/-- What a run into `dst0` leaves alone: every path that is not strictly
beneath `dst0`, unless it is a missing directory on the way to `dst0`. -/
def Frame (dst0 : Path) (w w' : World) : Prop :=
  ∀ q, ¬ Below dst0 q → (w.fs.stat q ≠ none ∨ ¬ q <+: dst0) → w'.fs.stat q = w.fs.stat q

/-- Directories stay directories. -/
def DirsKept (w w' : World) : Prop :=
  ∀ q, w.fs.isDir q = true → w'.fs.isDir q = true

/-- The path `pasteItem` writes to: `destDir + "/" + info.fileName()`. -/
def newPath (s : MainWindow) (copied : Path) : Path :=
  filePath s.rootIndex ++ fileName copied

/-- A journal line that `copyRecursively` treats as fatal: a directory
creation or a file copy that failed. -/
def Event.fatal (e : Event) : Bool :=
  match e.op with
  | Op.mkpath _ => !e.ok
  | Op.copy _ _ => !e.ok
  | _ => false

/-- The journal lines `evs` of a run that reported `ok`: a fatal line is the
last one and makes the run report failure. -/
def FailFast (evs : List Event) (ok : Bool) : Prop :=
  ∀ pre e post, evs = pre ++ e :: post → e.fatal = true → post = [] ∧ ok = false

/-- Every file the journal lines `evs` record as written lies in `T` and is
a regular file in `w`. -/
def Written (T : Path → Prop) (evs : List Event) (w : World) : Prop :=
  ∀ s q, (⟨Op.copy s q, true⟩ : Event) ∈ evs → T q ∧ w.fs.isFile q = true

/-- A stretch of a run from `w` to `w'` that reported `ok`, writing files in `T`. -/
def Run (T : Path → Prop) (ok : Bool) (w w' : World) : Prop :=
  ∃ evs, w'.log = w.log ++ evs ∧ FailFast evs ok ∧ Written T evs w'

/-! ## Concrete file systems and windows -/

/-- The tree of the two-level scenario: `/a/1.txt` and `/a/sub/2.txt`; no `/b`. -/
def scenarioFS : FS :=
  [(["a"], Entry.dir), (["a", "1.txt"], Entry.file "one"), (["a", "sub"], Entry.dir),
   (["a", "sub", "2.txt"], Entry.file "two")]

/-- The window on `scenarioFS` with `/a` selected. -/
def scenarioStart : MainWindow :=
  { MainWindow.init ⟨scenarioFS, []⟩ with currentIndex := some ["a"] }

/-- After Copy on `/a`, with `/b` as the directory shown. -/
def scenarioPaste : MainWindow :=
  { copyItem scenarioStart with rootIndex := some ["b"] }

/-- What the scenario's paste adds. -/
def scenarioAdded : FS :=
  [(["b"], Entry.dir), (["b", "a"], Entry.dir), (["b", "a", "1.txt"], Entry.file "one"),
   (["b", "a", "sub"], Entry.dir), (["b", "a", "sub", "2.txt"], Entry.file "two")]

/-- The scenario's tree next to an existing empty directory `/b`. -/
def roundTripFS : FS := scenarioFS ++ [(["b"], Entry.dir)]

/-- The window on `roundTripFS` with `sel` selected. -/
def roundTripStart (sel : Path) : MainWindow :=
  { MainWindow.init ⟨roundTripFS, []⟩ with currentIndex := some sel }

/-- After Copy on `sel`, with `/b` as the directory shown. -/
def roundTripPaste (sel : Path) : MainWindow :=
  { copyItem (roundTripStart sel) with rootIndex := some ["b"] }

/-- The directory `/a` holding a hidden file `.h` next to `1.txt`, and an
empty directory `/b`. -/
def hiddenFS : FS :=
  [(["a"], Entry.dir), (["a", ".h"], Entry.file "dot"), (["a", "1.txt"], Entry.file "one"),
   (["b"], Entry.dir)]

/-- The window on `hiddenFS` with `/a` selected. -/
def hiddenStart : MainWindow :=
  { MainWindow.init ⟨hiddenFS, []⟩ with currentIndex := some ["a"] }

/-- After Copy on `/a`, with `/b` as the directory shown. -/
def hiddenPaste : MainWindow :=
  { copyItem hiddenStart with rootIndex := some ["b"] }

/-- A directory `/d` holding one file `f`. -/
def oneFileFS : FS := [(["d"], Entry.dir), (["d", "f"], Entry.file "data")]

/-- Start-up on `oneFileFS`, double click on `/d`, row `/d/f` selected, Copy:
the paste writes to `/d/f` itself. -/
def selfPasteFile : MainWindow :=
  copyItem { tableDoubleClicked (MainWindow.init ⟨oneFileFS, []⟩) ["d"] with
    currentIndex := some ["d", "f"] }

/-- The directory `/tmp/Foo` holding one file `f`. -/
def fooFS : FS :=
  [(["tmp"], Entry.dir), (["tmp", "Foo"], Entry.dir), (["tmp", "Foo", "f"], Entry.file "data")]

/-- Start-up on `fs`, double click on `/tmp`, row `/tmp/Foo` selected, Copy. -/
def selfPasteDir (fs : FS) : MainWindow :=
  copyItem { tableDoubleClicked (MainWindow.init ⟨fs, []⟩) ["tmp"] with
    currentIndex := some ["tmp", "Foo"] }

/-- The freshly created empty directory `/tmp/Foo`. -/
def emptyFooFS : FS := [(["tmp"], Entry.dir), (["tmp", "Foo"], Entry.dir)]

/-- `/d` is shown and holds `f`; the clipboard names `/x/f`, which is not there. -/
def missingSourcePaste : MainWindow :=
  { MainWindow.init ⟨oneFileFS, []⟩ with rootIndex := some ["d"], copiedPath := some ["x", "f"] }

/-- The source `/a` holds the files `f` and `g`; at the destination `/b/a` the
name `g` is taken by a directory, so the copy of `g` fails after `f` has
been written. -/
def blockedFS : FS :=
  [(["a"], Entry.dir), (["a", "f"], Entry.file "1"), (["a", "g"], Entry.file "2"),
   (["b"], Entry.dir), (["b", "a"], Entry.dir), (["b", "a", "g"], Entry.dir)]

/-- The window on `blockedFS` showing `/b`, with `/a` on the clipboard in the given mode. -/
def blockedPaste (cut : Bool) : MainWindow :=
  { MainWindow.init ⟨blockedFS, []⟩ with
    rootIndex := some ["b"], copiedPath := some ["a"], copyIsCut := cut }

/-- What a paste is observed to do: the exit taken and the file system left. -/
def observe (r : Option (PasteOutcome × MainWindow)) : Option (PasteOutcome × FS) :=
  r.map (fun x => (x.1, x.2.world.fs))

/-! ## Facts about the store -/

theorem FS.find_erase (fs : FS) (p q : Path) :
    (fs.erase p).find q = if q = p then none else fs.find q := by
  induction fs with
  | nil => simp [FS.erase, FS.find]
  | cons x rest ih =>
    obtain ⟨k, e⟩ := x
    simp only [FS.erase] at ih ⊢
    by_cases hk : k = p
    · subst hk
      simp only [List.filter, ne_eq, not_true_eq_false, decide_False, ih, FS.find]
      by_cases hq : q = k
      · simp [hq]
      · simp [hq, Ne.symm hq]
    · simp only [List.filter, ne_eq, hk, not_false_eq_true, decide_True, FS.find, ih]
      by_cases hq : q = p
      · subst hq; simp [hk]
      · simp [hq]

theorem FS.find_append (a b : FS) (q : Path) :
    FS.find (a ++ b) q = match a.find q with
      | some e => some e
      | none => b.find q := by
  induction a with
  | nil => simp [FS.find]
  | cons x rest ih =>
    obtain ⟨k, e⟩ := x
    by_cases hk : k = q
    · simp [FS.find, hk]
    · simp [FS.find, hk, ih]

theorem FS.find_put (fs : FS) (p q : Path) (e : Entry) :
    (fs.put p e).find q = if q = p then some e else fs.find q := by
  unfold FS.put
  rw [FS.find_append, FS.find_erase]
  by_cases hq : q = p
  · simp [hq, FS.find]
  · simp only [hq, if_false]
    cases h : fs.find q with
    | none => simp [FS.find, Ne.symm hq]
    | some v => simp

theorem FS.stat_erase_ne (fs : FS) {p q : Path} (h : q ≠ p) :
    (fs.erase p).stat q = fs.stat q := by
  simp [FS.stat, FS.find_erase, h]

theorem FS.stat_erase_self (fs : FS) {p : Path} (h : p ≠ []) :
    (fs.erase p).stat p = none := by
  simp [FS.stat, FS.find_erase, h]

theorem FS.stat_put_ne (fs : FS) {p q : Path} (e : Entry) (h : q ≠ p) :
    (fs.put p e).stat q = fs.stat q := by
  simp [FS.stat, FS.find_put, h]

theorem FS.stat_put_self (fs : FS) {p : Path} (e : Entry) (h : p ≠ []) :
    (fs.put p e).stat p = some e := by
  simp [FS.stat, FS.find_put, h]

theorem FS.stat_root (fs : FS) : fs.stat [] = some Entry.dir := by
  simp [FS.stat]

theorem FS.stat_addDirs (qs : List Path) : ∀ (fs : FS) (q : Path),
    (fs.addDirs qs).stat q =
      if q ∈ qs ∧ fs.stat q = none then some Entry.dir else fs.stat q := by
  induction qs with
  | nil => intro fs q; simp [FS.addDirs]
  | cons a rest ih =>
    intro fs q
    simp only [FS.addDirs, ih]
    by_cases ha : fs.stat a = none
    · have hne : a ≠ [] := by
        intro h; subst h; simp [FS.stat] at ha
      simp only [ha, if_true]
      by_cases hqa : q = a
      · subst hqa
        simp [FS.stat_put_self fs Entry.dir hne, ha]
      · simp [FS.stat_put_ne fs Entry.dir hqa, hqa]
    · simp only [ha, if_false]
      by_cases hqa : q = a
      · subst hqa; simp [ha]
      · simp [hqa]

theorem FS.mem_of_find {fs : FS} {p : Path} {e : Entry} (h : fs.find p = some e) :
    (p, e) ∈ fs := by
  induction fs with
  | nil => simp [FS.find] at h
  | cons x rest ih =>
    obtain ⟨k, v⟩ := x
    by_cases hk : k = p
    · simp [FS.find, hk] at h; simp [hk, h]
    · simp [FS.find, hk] at h; simp [ih h]

theorem FS.mem_of_stat {fs : FS} {p : Path} {e : Entry} (h : fs.stat p = some e)
    (hp : p ≠ []) : (p, e) ∈ fs := by
  simp [FS.stat, hp] at h
  exact FS.mem_of_find h

theorem FS.mem_names {fs : FS} {p : Path} {n : String}
    (h : (fs.stat (p ++ [n])).isSome = true) : n ∈ fs.names p := by
  obtain ⟨e, he⟩ := Option.isSome_iff_exists.mp h
  have hm := FS.mem_of_stat he (by simp)
  simp only [FS.names, List.mem_filterMap]
  exact ⟨(p ++ [n], e), hm, by simp⟩

theorem mem_sortNames {ns : List String} {n : String} : n ∈ sortNames ns ↔ n ∈ ns :=
  (List.perm_insertionSort _ ns).mem_iff

theorem nodup_sortNames {ns : List String} (h : ns.Nodup) : (sortNames ns).Nodup :=
  (List.perm_insertionSort _ ns).nodup_iff.mpr h

theorem FS.mem_fileNames {fs : FS} {p : Path} {n : String} :
    n ∈ fs.fileNames p ↔ fs.isFile (p ++ [n]) = true ∧ hidden n = false := by
  simp only [FS.fileNames, mem_sortNames, List.mem_filter, List.mem_dedup, Bool.and_eq_true,
    Bool.not_eq_true']
  constructor
  · exact fun h => ⟨h.2.2, h.2.1⟩
  · intro h
    refine ⟨FS.mem_names ?_, h.2, h.1⟩
    have h1 := h.1
    simp only [FS.isFile] at h1
    split at h1 <;> simp_all

theorem FS.mem_dirNames {fs : FS} {p : Path} {n : String} :
    n ∈ fs.dirNames p ↔ fs.isDir (p ++ [n]) = true ∧ hidden n = false := by
  simp only [FS.dirNames, mem_sortNames, List.mem_filter, List.mem_dedup, Bool.and_eq_true,
    Bool.not_eq_true']
  constructor
  · exact fun h => ⟨h.2.2, h.2.1⟩
  · intro h
    refine ⟨FS.mem_names ?_, h.2, h.1⟩
    have h1 := h.1
    simp only [FS.isDir] at h1
    split at h1 <;> simp_all

theorem FS.nodup_fileNames (fs : FS) (p : Path) : (fs.fileNames p).Nodup :=
  nodup_sortNames ((List.nodup_dedup _).filter _)

theorem FS.nodup_dirNames (fs : FS) (p : Path) : (fs.dirNames p).Nodup :=
  nodup_sortNames ((List.nodup_dedup _).filter _)

theorem FS.isDir_iff {fs : FS} {p : Path} : fs.isDir p = true ↔ fs.stat p = some Entry.dir := by
  simp only [FS.isDir]
  split <;> simp_all

theorem FS.isFile_iff {fs : FS} {p : Path} :
    fs.isFile p = true ↔ ∃ c, fs.stat p = some (Entry.file c) := by
  simp only [FS.isFile]
  split <;> simp_all

theorem FS.length_le_depth {fs : FS} {p : Path} (h : (fs.stat p).isSome = true) :
    p.length ≤ fs.depth := by
  by_cases hp : p = []
  · simp [hp]
  · obtain ⟨e, he⟩ := Option.isSome_iff_exists.mp h
    have hm := FS.mem_of_stat he hp
    clear h he
    induction fs with
    | nil => simp at hm
    | cons x rest ih =>
      simp only [FS.depth, List.map_cons, List.foldr_cons]
      rcases List.mem_cons.mp hm with h | h
      · subst h; exact le_max_left _ _
      · exact le_trans (ih h) (le_max_right _ _)

/-- In a well-formed store, what lies under a path that names nothing names nothing. -/
theorem FS.WF.parent {fs : FS} (hwf : fs.WF) {p : Path} {n : String}
    (h : (fs.stat (p ++ [n])).isSome = true) : fs.isDir p = true := by
  obtain ⟨e, he⟩ := Option.isSome_iff_exists.mp h
  have hm := FS.mem_of_stat he (by simp)
  have := hwf _ hm (by simp)
  simpa using this

/-! ## Facts about the provider calls -/

theorem below_concat {a b : Path} (h : a <+: b) (n : String) : Below a (b ++ [n]) := by
  refine ⟨h.trans (List.prefix_append _ _), ?_⟩
  intro he
  have := h.length_le
  have h2 := congrArg List.length he
  simp at h2
  omega

theorem QFile.remove_log (P : Provider) (w : World) (p : Path) :
    (QFile.remove P w p).2.log = w.log ++ [⟨Op.remove p, (QFile.remove P w p).1⟩] := by
  unfold QFile.remove; split <;> simp [World.done, World.failed]

theorem QFile.remove_stat_ne (P : Provider) (w : World) {p q : Path} (h : q ≠ p) :
    (QFile.remove P w p).2.fs.stat q = w.fs.stat q := by
  unfold QFile.remove; split <;> simp [World.done, World.failed, FS.stat_erase_ne _ h]

theorem QFile.remove_false (P : Provider) (w : World) (p : Path)
    (h : (QFile.remove P w p).1 = false) : (QFile.remove P w p).2.fs = w.fs := by
  unfold QFile.remove at h ⊢; split <;> simp_all [World.failed]

theorem QFile.remove_stat_dir (P : Provider) (w : World) (p q : Path)
    (h : w.fs.isDir q = true) : (QFile.remove P w p).2.fs.isDir q = true := by
  by_cases hq : q = p
  · subst hq
    have : w.fs.isFile q = false := by
      rw [FS.isDir_iff] at h
      simp [FS.isFile, h]
    unfold QFile.remove
    simp [this, World.failed, h]
  · rw [FS.isDir_iff] at h ⊢
    rw [QFile.remove_stat_ne P w hq]; exact h

theorem QFile.copy_log (P : Provider) (w : World) (s d : Path) :
    (QFile.copy P w s d).2.log = w.log ++ [⟨Op.copy s d, (QFile.copy P w s d).1⟩] := by
  unfold QFile.copy; split
  · split <;> simp [World.done, World.failed]
  · simp [World.failed]

theorem QFile.copy_false (P : Provider) (w : World) (s d : Path)
    (h : (QFile.copy P w s d).1 = false) : (QFile.copy P w s d).2.fs = w.fs := by
  unfold QFile.copy at h ⊢; split
  · split <;> simp_all [World.failed]
  · simp [World.failed]

theorem QFile.copy_true (P : Provider) (w : World) (s d : Path)
    (h : (QFile.copy P w s d).1 = true) :
    ∃ c, w.fs.stat s = some (Entry.file c) ∧ w.fs.stat d = none ∧
      w.fs.isDir d.dropLast = true ∧ (QFile.copy P w s d).2.fs = w.fs.put d (Entry.file c) := by
  unfold QFile.copy at h ⊢
  split
  · rename_i c hc
    split
    · rename_i hcond
      simp only [Bool.and_eq_true, Bool.not_eq_true', FS.exist] at hcond
      have hd : w.fs.stat d = none := by
        cases hst : w.fs.stat d with
        | none => rfl
        | some v => rw [hst] at hcond; simp at hcond
      exact ⟨c, hc, hd, hcond.1.2, rfl⟩
    · simp_all
  · simp_all

theorem QFile.copy_stat_ne (P : Provider) (w : World) (s : Path) {d q : Path} (h : q ≠ d) :
    (QFile.copy P w s d).2.fs.stat q = w.fs.stat q := by
  cases hc : (QFile.copy P w s d).1 with
  | false => rw [QFile.copy_false P w s d hc]
  | true =>
    obtain ⟨c, -, -, -, hfs⟩ := QFile.copy_true P w s d hc
    rw [hfs, FS.stat_put_ne _ _ h]

theorem QFile.copy_stat_some (P : Provider) (w : World) (s d q : Path)
    (h : w.fs.stat q ≠ none) : (QFile.copy P w s d).2.fs.stat q = w.fs.stat q := by
  cases hc : (QFile.copy P w s d).1 with
  | false => rw [QFile.copy_false P w s d hc]
  | true =>
    obtain ⟨c, -, hd, -, hfs⟩ := QFile.copy_true P w s d hc
    have : q ≠ d := by intro he; subst he; exact h hd
    rw [hfs, FS.stat_put_ne _ _ this]

theorem QFile.copy_reliable (P : Provider) (w : World) (s d : Path) (c : String)
    (hP : P.refuses w (Op.copy s d) = false) (hs : w.fs.stat s = some (Entry.file c))
    (hd : w.fs.stat d = none) (hpar : w.fs.isDir d.dropLast = true) :
    QFile.copy P w s d = (true, w.done (w.fs.put d (Entry.file c)) (Op.copy s d)) := by
  unfold QFile.copy
  simp [hs, hd, hpar, hP, FS.exist]

theorem QDir.mkpath_log (P : Provider) (w : World) (p : Path) :
    (QDir.mkpath P w p).2.log = w.log ++ [⟨Op.mkpath p, (QDir.mkpath P w p).1⟩] := by
  unfold QDir.mkpath; split <;> simp [World.done, World.failed]

theorem QDir.mkpath_false (P : Provider) (w : World) (p : Path)
    (h : (QDir.mkpath P w p).1 = false) : (QDir.mkpath P w p).2.fs = w.fs := by
  unfold QDir.mkpath at h ⊢; split <;> simp_all [World.failed]

theorem QDir.mkpath_true (P : Provider) (w : World) (p : Path)
    (h : (QDir.mkpath P w p).1 = true) (q : Path) :
    (QDir.mkpath P w p).2.fs.stat q =
      if q <+: p ∧ w.fs.stat q = none then some Entry.dir else w.fs.stat q := by
  unfold QDir.mkpath at h ⊢
  split
  · simp [World.done, FS.stat_addDirs, List.mem_inits]
  · simp_all

theorem QDir.mkpath_stat_some (P : Provider) (w : World) (p q : Path)
    (h : w.fs.stat q ≠ none) : (QDir.mkpath P w p).2.fs.stat q = w.fs.stat q := by
  cases hc : (QDir.mkpath P w p).1 with
  | false => rw [QDir.mkpath_false P w p hc]
  | true => rw [QDir.mkpath_true P w p hc]; simp [h]

theorem QDir.mkpath_stat_off (P : Provider) (w : World) (p q : Path)
    (h : ¬ q <+: p) : (QDir.mkpath P w p).2.fs.stat q = w.fs.stat q := by
  cases hc : (QDir.mkpath P w p).1 with
  | false => rw [QDir.mkpath_false P w p hc]
  | true => rw [QDir.mkpath_true P w p hc]; simp [h]

theorem QDir.mkpath_reliable (P : Provider) (w : World) (p : Path)
    (hP : P.refuses w (Op.mkpath p) = false)
    (hq : ∀ q, q <+: p → w.fs.isFile q = false) :
    (QDir.mkpath P w p).1 = true := by
  unfold QDir.mkpath
  have : (p.inits.all fun q => !w.fs.isFile q) = true := by
    simp only [List.all_eq_true, Bool.not_eq_true', List.mem_inits]
    exact hq
  simp [this, hP]

theorem QDir.entryInfoList_fs (P : Provider) (w : World) (p : Path) (f : Filter) :
    (QDir.entryInfoList P w p f).2.fs = w.fs := by
  unfold QDir.entryInfoList; split <;> simp [World.done, World.failed]

theorem QDir.entryInfoList_log (P : Provider) (w : World) (p : Path) (f : Filter) :
    ∃ b, (QDir.entryInfoList P w p f).2.log = w.log ++ [⟨Op.list p, b⟩] := by
  unfold QDir.entryInfoList; split
  · exact ⟨true, by simp [World.done]⟩
  · exact ⟨false, by simp [World.failed]⟩

theorem QDir.entryInfoList_nodup (P : Provider) (w : World) (p : Path) (f : Filter) :
    (QDir.entryInfoList P w p f).1.Nodup := by
  unfold QDir.entryInfoList; split
  · cases f
    · exact FS.nodup_fileNames _ _
    · exact FS.nodup_dirNames _ _
  · simp

theorem QDir.entryInfoList_files (P : Provider) (w : World) (p : Path) {n : String}
    (h : n ∈ (QDir.entryInfoList P w p Filter.Files).1) : w.fs.isFile (p ++ [n]) = true := by
  unfold QDir.entryInfoList at h; split at h
  · exact (FS.mem_fileNames.mp h).1
  · simp at h

theorem QDir.entryInfoList_dirs (P : Provider) (w : World) (p : Path) {n : String}
    (h : n ∈ (QDir.entryInfoList P w p Filter.Dirs).1) : w.fs.isDir (p ++ [n]) = true := by
  unfold QDir.entryInfoList at h; split at h
  · exact (FS.mem_dirNames.mp h).1
  · simp at h

theorem QDir.entryInfoList_reliable (P : Provider) (w : World) (p : Path) (f : Filter)
    (hP : P.refuses w (Op.list p) = false) (hd : w.fs.isDir p = true) :
    (QDir.entryInfoList P w p f).1 = match f with
      | Filter.Files => w.fs.fileNames p
      | Filter.Dirs => w.fs.dirNames p := by
  unfold QDir.entryInfoList
  simp [hP, hd]

/-! ## The shape of a run of `copyRecursively` -/

theorem copyFiles_rel (P : Provider) (R : World → World → Prop)
    (hrefl : ∀ w, R w w) (htrans : ∀ a b c, R a b → R b c → R a c)
    (src dst : Path) (ns : List String)
    (hrm : ∀ w n, n ∈ ns → R w (QFile.remove P w (dst ++ [n])).2)
    (hcp : ∀ w n, n ∈ ns → R w (QFile.copy P w (src ++ [n]) (dst ++ [n])).2) :
    ∀ w, R w (copyFiles P src dst ns w).2 := by
  induction ns with
  | nil => intro w; exact hrefl w
  | cons n ns ih =>
    intro w
    have ih2 := ih (fun w m hm => hrm w m (List.mem_cons_of_mem _ hm))
      (fun w m hm => hcp w m (List.mem_cons_of_mem _ hm))
    simp only [copyFiles]
    have h1 : R w (if QFile.exists w (dst ++ [n]) then (QFile.remove P w (dst ++ [n])).2 else w) := by
      split
      · exact hrm w n (List.mem_cons_self _ _)
      · exact hrefl w
    generalize (if QFile.exists w (dst ++ [n]) then (QFile.remove P w (dst ++ [n])).2 else w) = w1 at h1
    have h2 := hcp w1 n (List.mem_cons_self _ _)
    rcases hc : QFile.copy P w1 (src ++ [n]) (dst ++ [n]) with ⟨ok, w2⟩
    rw [hc] at h2
    cases ok with
    | false => exact htrans _ _ _ h1 h2
    | true => exact htrans _ _ _ h1 (htrans _ _ _ h2 (ih2 w2))

theorem copyDirs_rel (R : World → World → Prop)
    (hrefl : ∀ w, R w w) (htrans : ∀ a b c, R a b → R b c → R a c)
    (recurse : World → Path → Path → Option (Bool × World))
    (src dst : Path) (ns : List String)
    (hrec : ∀ n, n ∈ ns → ∀ w r, recurse w (src ++ [n]) (dst ++ [n]) = some r → R w r.2) :
    ∀ w r, copyDirs recurse src dst ns w = some r → R w r.2 := by
  induction ns with
  | nil => intro w r h; simp only [copyDirs, Option.some.injEq] at h; subst h; exact hrefl w
  | cons n ns ih =>
    intro w r h
    have ih2 := ih (fun m hm => hrec m (List.mem_cons_of_mem _ hm))
    simp only [copyDirs] at h
    cases hr : recurse w (src ++ [n]) (dst ++ [n]) with
    | none => simp [hr] at h
    | some r1 =>
      have h1 := hrec n (List.mem_cons_self _ _) w r1 hr
      obtain ⟨ok, w1⟩ := r1
      cases ok with
      | false => simp [hr] at h; subst h; exact h1
      | true => simp [hr] at h; exact htrans _ _ _ h1 (ih2 w1 r h)

/-- The four ways a call of `copyRecursively` ends. -/
theorem copyRecursively_cases (P : Provider) (fuel : Nat) (w : World) (src dst : Path)
    (r : Bool × World) (h : copyRecursively P (fuel + 1) w src dst = some r) :
    (QDir.exists w src = false ∧ r = (false, w)) ∨
    (QDir.exists w src = true ∧ ∃ r0, r0 = ensureDir P w dst ∧
      ((r0.1 = false ∧ r = (false, r0.2)) ∨
       (r0.1 = true ∧ ∃ l1, l1 = QDir.entryInfoList P r0.2 src Filter.Files ∧
          ∃ r1, r1 = copyFiles P src dst l1.1 l1.2 ∧
          ((r1.1 = false ∧ r = (false, r1.2)) ∨
           (r1.1 = true ∧ ∃ l2, l2 = QDir.entryInfoList P r1.2 src Filter.Dirs ∧
              copyDirs (copyRecursively P fuel) src dst l2.1 l2.2 = some r))))) := by
  simp only [copyRecursively] at h
  cases h0 : QDir.exists w src with
  | false =>
    left
    simp only [h0, Bool.not_false, if_true, Option.some.injEq] at h
    exact ⟨rfl, h.symm⟩
  | true =>
    right
    refine ⟨rfl, _, rfl, ?_⟩
    simp only [h0, Bool.not_true, Bool.false_eq_true, if_false] at h
    generalize ensureDir P w dst = r0 at h ⊢
    cases hr0 : r0.1 with
    | false =>
      left
      simp only [hr0, Bool.not_false, if_true, Option.some.injEq] at h
      exact ⟨rfl, h.symm⟩
    | true =>
      right
      refine ⟨rfl, _, rfl, _, rfl, ?_⟩
      simp only [hr0, Bool.not_true, Bool.false_eq_true, if_false] at h
      generalize copyFiles P src dst (QDir.entryInfoList P r0.2 src Filter.Files).1
        (QDir.entryInfoList P r0.2 src Filter.Files).2 = r1 at h ⊢
      cases hr1 : r1.1 with
      | false =>
        left
        simp only [hr1, Bool.not_false, if_true, Option.some.injEq] at h
        exact ⟨rfl, h.symm⟩
      | true =>
        right
        simp only [hr1, Bool.not_true, Bool.false_eq_true, if_false] at h
        exact ⟨rfl, _, rfl, h⟩

/-- Whatever the primitives preserve at and beneath `dst0`, a run of
`copyRecursively` into `dst0` preserves. -/
theorem copyRecursively_rel (P : Provider) (dst0 : Path) (R : World → World → Prop)
    (hrefl : ∀ w, R w w) (htrans : ∀ a b c, R a b → R b c → R a c)
    (hmk : ∀ w p, dst0 <+: p → R w (QDir.mkpath P w p).2)
    (hrm : ∀ w p, Below dst0 p → R w (QFile.remove P w p).2)
    (hcp : ∀ w s p, Below dst0 p → R w (QFile.copy P w s p).2)
    (hls : ∀ w p f, R w (QDir.entryInfoList P w p f).2) :
    ∀ fuel w src dst, dst0 <+: dst → ∀ r, copyRecursively P fuel w src dst = some r →
      R w r.2 := by
  intro fuel
  induction fuel with
  | zero => intro w src dst _ r h; simp [copyRecursively] at h
  | succ fuel ih =>
    intro w src dst hd r h
    rcases copyRecursively_cases P fuel w src dst r h with ⟨-, hr⟩ | ⟨-, r0, hr0, h⟩
    · subst hr; exact hrefl w
    · have h0 : R w r0.2 := by
        subst hr0; unfold ensureDir; split
        · exact hrefl w
        · exact hmk w dst hd
      rcases h with ⟨-, hr⟩ | ⟨-, l1, hl1, r1, hr1, h⟩
      · subst hr; exact h0
      · have hl : R r0.2 l1.2 := by subst hl1; exact hls _ _ _
        have hf : R l1.2 r1.2 := by
          subst hr1
          exact copyFiles_rel P R hrefl htrans src dst l1.1
            (fun w n _ => hrm w _ (below_concat hd n))
            (fun w n _ => hcp w _ _ (below_concat hd n)) l1.2
        have h2 := htrans _ _ _ h0 (htrans _ _ _ hl hf)
        rcases h with ⟨-, hr⟩ | ⟨-, l2, hl2, h⟩
        · subst hr; exact h2
        · have hl' : R r1.2 l2.2 := by subst hl2; exact hls _ _ _
          have hdirs := copyDirs_rel R hrefl htrans (copyRecursively P fuel) src dst l2.1
            (fun n _ w r hr => ih w _ _ (hd.trans (List.prefix_append _ _)) r hr) l2.2 r h
          exact htrans _ _ _ h2 (htrans _ _ _ hl' hdirs)

theorem Frame.same (dst0 : Path) (w : World) : Frame dst0 w w := fun _ _ _ => rfl

theorem Frame.trans {dst0 : Path} {a b c : World} (h1 : Frame dst0 a b) (h2 : Frame dst0 b c) :
    Frame dst0 a c := by
  intro q hb hq
  have e1 := h1 q hb hq
  have e2 := h2 q hb (by rw [e1]; exact hq)
  rw [e2, e1]

theorem Frame.of_mkpath (P : Provider) {dst0 p : Path} (hp : dst0 <+: p) (w : World) :
    Frame dst0 w (QDir.mkpath P w p).2 := by
  intro q hb hq
  rcases hq with hq | hq
  · exact QDir.mkpath_stat_some P w p q hq
  · apply QDir.mkpath_stat_off
    intro hqp
    rcases List.prefix_or_prefix_of_prefix hqp hp with h | h
    · exact hq h
    · by_cases he : dst0 = q
      · subst he; exact hq (List.prefix_refl _)
      · exact hb ⟨h, he⟩

theorem Frame.of_remove (P : Provider) {dst0 p : Path} (hp : Below dst0 p) (w : World) :
    Frame dst0 w (QFile.remove P w p).2 := by
  intro q hb _
  exact QFile.remove_stat_ne P w (fun he => hb (he ▸ hp))

theorem Frame.of_copy (P : Provider) {dst0 p : Path} (hp : Below dst0 p) (w : World) (s : Path) :
    Frame dst0 w (QFile.copy P w s p).2 := by
  intro q hb _
  exact QFile.copy_stat_ne P w s (fun he => hb (he ▸ hp))

theorem Frame.of_list (P : Provider) (dst0 : Path) (w : World) (p : Path) (f : Filter) :
    Frame dst0 w (QDir.entryInfoList P w p f).2 := by
  intro q _ _
  rw [QDir.entryInfoList_fs]

theorem Frame.of_ensureDir (P : Provider) (w : World) (dst : Path) :
    Frame dst w (ensureDir P w dst).2 := by
  unfold FileExplorer.ensureDir; split
  · exact Frame.same _ _
  · exact Frame.of_mkpath P (List.prefix_refl _) w

theorem Frame.of_copyFiles (P : Provider) (src dst : Path) (ns : List String) (w : World) :
    Frame dst w (copyFiles P src dst ns w).2 :=
  copyFiles_rel P (Frame dst) (Frame.same dst) (fun _ _ _ => Frame.trans) src dst ns
    (fun w n _ => Frame.of_remove P (below_concat (List.prefix_refl _) n) w)
    (fun w n _ => Frame.of_copy P (below_concat (List.prefix_refl _) n) w _) w

theorem Frame.of_copyRecursively (P : Provider) (fuel : Nat) (w : World) (src dst : Path)
    (r : Bool × World) (h : copyRecursively P fuel w src dst = some r) : Frame dst w r.2 :=
  copyRecursively_rel P dst (Frame dst) (Frame.same dst) (fun _ _ _ => Frame.trans)
    (fun w _ hp => Frame.of_mkpath P hp w) (fun w _ hp => Frame.of_remove P hp w)
    (fun w s _ hp => Frame.of_copy P hp w s) (fun w p f => Frame.of_list P dst w p f)
    fuel w src dst (List.prefix_refl _) r h

theorem below_of_below_concat {a q : Path} {n : String} (h : Below (a ++ [n]) q) : Below a q := by
  refine ⟨(List.prefix_append _ _).trans h.1, ?_⟩
  intro he
  have := h.1.length_le
  rw [← he] at this
  simp at this

/-- A run into a child of `dst` is a run into `dst`. -/
theorem Frame.concat {dst : Path} {n : String} {w w' : World} (h : Frame (dst ++ [n]) w w') :
    Frame dst w w' := by
  intro q hb hq
  apply h q (fun hb' => hb (below_of_below_concat hb'))
  rcases hq with hq | hq
  · exact Or.inl hq
  · right
    intro hqn
    rcases List.prefix_concat_iff.mp hqn with he | hp
    · exact hb (he ▸ below_concat (List.prefix_refl _) n)
    · exact hq hp

/-- Paths at and beneath `src` are left alone by a run into a `dst` that is
neither above nor beneath `src`. -/
theorem Frame.sameUnder {src dst : Path} {w w' : World} (h : Frame dst w w')
    (h1 : ¬ src <+: dst) (h2 : ¬ dst <+: src) (r : Path) :
    w'.fs.stat (src ++ r) = w.fs.stat (src ++ r) := by
  apply h
  · intro hb
    rcases List.prefix_or_prefix_of_prefix hb.1 (List.prefix_append src r) with h | h
    · exact h2 h
    · exact h1 h
  · right
    intro hq
    exact h1 ((List.prefix_append src r).trans hq)

theorem disjoint_concat {src dst : Path} (h1 : ¬ src <+: dst) (n : String) :
    ¬ (src ++ [n]) <+: (dst ++ [n]) := by
  intro h
  rcases List.prefix_concat_iff.mp h with he | hp
  · have := List.append_inj_left' he rfl
    exact h1 (this ▸ List.prefix_refl _)
  · exact h1 ((List.prefix_append _ _).trans hp)

theorem DirsKept.of_copyRecursively_run (P : Provider) (fuel : Nat) (w : World) (src dst : Path)
    (r : Bool × World) (h : copyRecursively P fuel w src dst = some r) : DirsKept w r.2 :=
  copyRecursively_rel P dst DirsKept (fun _ _ h => h) (fun _ _ _ h1 h2 q hq => h2 q (h1 q hq))
    (fun w p _ q hq => by
      rw [FS.isDir_iff] at hq ⊢
      rw [QDir.mkpath_stat_some P w p q (by simp [hq])]; exact hq)
    (fun w p _ q hq => QFile.remove_stat_dir P w p q hq)
    (fun w s p _ q hq => by
      rw [FS.isDir_iff] at hq ⊢
      rw [QFile.copy_stat_some P w s p q (by simp [hq])]; exact hq)
    (fun w p f q hq => by rw [QDir.entryInfoList_fs]; exact hq)
    fuel w src dst (List.prefix_refl _) r h

theorem copyDirs_returns (I : World → Prop)
    (recurse : World → Path → Path → Option (Bool × World))
    (src dst : Path) (ns : List String)
    (hrec : ∀ n, n ∈ ns → ∀ w, I w → ∃ r, recurse w (src ++ [n]) (dst ++ [n]) = some r ∧ I r.2) :
    ∀ w, I w → ∃ r, copyDirs recurse src dst ns w = some r ∧ I r.2 := by
  induction ns with
  | nil => intro w hw; exact ⟨(true, w), rfl, hw⟩
  | cons n ns ih =>
    intro w hw
    obtain ⟨⟨ok, w1⟩, hr, hI⟩ := hrec n (List.mem_cons_self _ _) w hw
    simp only [copyDirs, hr]
    cases ok with
    | false => exact ⟨(false, w1), rfl, hI⟩
    | true => exact ih (fun m hm => hrec m (List.mem_cons_of_mem _ hm)) w1 hI

/-- A run whose source and destination do not overlap returns once the budget
exceeds the depth of the source tree. -/
theorem copyRecursively_returns (P : Provider) : ∀ (N fuel : Nat) (w : World) (src dst : Path),
    N < fuel → ¬ src <+: dst → ¬ dst <+: src →
    (∀ r, (w.fs.stat (src ++ r)).isSome = true → r.length < N) →
    ∃ res, copyRecursively P fuel w src dst = some res := by
  intro N
  induction N with
  | zero =>
    intro fuel w src dst hf _ _ hb
    obtain ⟨f, rfl⟩ : ∃ f, fuel = f + 1 := ⟨fuel - 1, by omega⟩
    have : QDir.exists w src = false := by
      cases hs : w.fs.stat src with
      | none => simp [QDir.exists, FS.isDir, hs]
      | some e =>
        have := hb [] (by simp [hs])
        simp at this
    exact ⟨(false, w), by simp [copyRecursively, this]⟩
  | succ k ih =>
    intro fuel w src dst hf h1 h2 hb
    obtain ⟨f, rfl⟩ : ∃ f, fuel = f + 1 := ⟨fuel - 1, by omega⟩
    simp only [copyRecursively]
    split
    · exact ⟨_, rfl⟩
    split
    · exact ⟨_, rfl⟩
    split
    · exact ⟨_, rfl⟩
    have hfr : Frame dst w (QDir.entryInfoList P (copyFiles P src dst
        (QDir.entryInfoList P (ensureDir P w dst).2 src Filter.Files).1
        (QDir.entryInfoList P (ensureDir P w dst).2 src Filter.Files).2).2 src Filter.Dirs).2 :=
      (Frame.of_ensureDir P w dst).trans ((Frame.of_list P dst _ _ _).trans
        ((Frame.of_copyFiles P src dst _ _).trans (Frame.of_list P dst _ _ _)))
    obtain ⟨r, hr, -⟩ := copyDirs_returns
      (fun w' => ∀ r, w'.fs.stat (src ++ r) = w.fs.stat (src ++ r))
      (copyRecursively P f) src dst _
      (fun n _ w' hw' => by
        obtain ⟨res, hres⟩ := ih f w' (src ++ [n]) (dst ++ [n]) (by omega)
          (disjoint_concat h1 n) (disjoint_concat h2 n)
          (fun r hr => by
            have := hb (n :: r) (by
              have e := hw' (n :: r)
              rw [List.append_assoc] at hr
              simpa [e] using hr)
            simpa using this)
        refine ⟨res, hres, fun r => ?_⟩
        have hfr' := (Frame.of_copyRecursively P f w' _ _ res hres).concat
        rw [hfr'.sameUnder h1 h2 r, hw' r])
      _ (fun r => hfr.sameUnder h1 h2 r)
    exact ⟨r, hr⟩

theorem concat_ne_of_ne {a b : Path} (h : a ≠ b) (n m : String) : a ++ [n] ≠ b ++ [m] := by
  intro he
  exact h (List.append_inj_left' he rfl)

theorem concat_ne_of_name {a : Path} {n m : String} (h : n ≠ m) : a ++ [n] ≠ a ++ [m] := by
  intro he
  have := List.append_cancel_left he
  simp at this
  exact h this

/-- The file loop on a reliable provider, into a directory that has none of
the names yet: every listed file arrives, nothing else changes. -/
theorem copyFiles_copies (P : Provider) (hP : ∀ w op, P.refuses w op = false)
    (src dst : Path) (hne : src ≠ dst) : ∀ (ns : List String) (w : World), ns.Nodup →
    (∀ n, n ∈ ns → w.fs.isFile (src ++ [n]) = true) →
    (∀ n, n ∈ ns → w.fs.stat (dst ++ [n]) = none) →
    w.fs.isDir dst = true →
    ∃ w', copyFiles P src dst ns w = (true, w') ∧
      (∀ n, n ∈ ns → w'.fs.stat (dst ++ [n]) = w.fs.stat (src ++ [n])) ∧
      (∀ q, (∀ n, n ∈ ns → q ≠ dst ++ [n]) → w'.fs.stat q = w.fs.stat q) := by
  intro ns
  induction ns with
  | nil => intro w _ _ _ _; exact ⟨w, rfl, by simp, fun _ _ => rfl⟩
  | cons n ns ih =>
    intro w hnd hfile hfresh hdir
    have hn_fresh := hfresh n (List.mem_cons_self _ _)
    obtain ⟨c, hc⟩ := FS.isFile_iff.mp (hfile n (List.mem_cons_self _ _))
    have hex : QFile.exists w (dst ++ [n]) = false := by simp [QFile.exists, FS.exist, hn_fresh]
    have hcopy := QFile.copy_reliable P w (src ++ [n]) (dst ++ [n]) c (hP _ _) hc hn_fresh
      (by simpa using hdir)
    simp only [copyFiles, hex, Bool.false_eq_true, if_false, hcopy]
    have hnd' := List.nodup_cons.mp hnd
    have hstat : ∀ q, q ≠ dst ++ [n] →
        (w.done (w.fs.put (dst ++ [n]) (Entry.file c)) (Op.copy (src ++ [n]) (dst ++ [n]))).fs.stat q
          = w.fs.stat q := fun q hq => by
      simp only [World.done]; exact FS.stat_put_ne _ _ hq
    obtain ⟨w', hw', h1, h2⟩ := ih
      (w.done (w.fs.put (dst ++ [n]) (Entry.file c)) (Op.copy (src ++ [n]) (dst ++ [n]))) hnd'.2
      (fun m hm => by
        rw [FS.isFile_iff, hstat _ (concat_ne_of_ne hne m n)]
        exact FS.isFile_iff.mp (hfile m (List.mem_cons_of_mem _ hm)))
      (fun m hm => by
        rw [hstat _ (concat_ne_of_name (fun e => hnd'.1 (e ▸ hm)))]
        exact hfresh m (List.mem_cons_of_mem _ hm))
      (by
        rw [FS.isDir_iff, hstat _ (by
          intro he
          have := congrArg List.length he
          simp at this)]
        exact FS.isDir_iff.mp hdir)
    refine ⟨w', hw', ?_, ?_⟩
    · intro m hm
      rcases List.mem_cons.mp hm with rfl | hm
      · rw [h2 _ (fun k hk => concat_ne_of_name (fun e => hnd'.1 (by rw [e]; exact hk)))]
        simp only [World.done]
        rw [FS.stat_put_self _ _ (by simp), hc]
      · rw [h1 m hm, hstat _ (concat_ne_of_ne hne m n)]
    · intro q hq
      rw [h2 q (fun m hm => hq m (List.mem_cons_of_mem _ hm)), hstat q (hq n (List.mem_cons_self _ _))]

/-- In a tree-shaped part of the store, something deep beneath a path makes
that path a directory. -/
theorem dir_above {fs : FS} {src : Path}
    (hwf : ∀ r n, (fs.stat (src ++ r ++ [n])).isSome = true → fs.isDir (src ++ r) = true)
    (a : Path) : ∀ r, r ≠ [] → (fs.stat (src ++ (a ++ r))).isSome = true →
      fs.isDir (src ++ a) = true := by
  intro r
  induction r using List.reverseRecOn with
  | nil => intro h; exact absurd rfl h
  | append_singleton r0 m ih =>
    intro _ hs
    have hd : fs.isDir (src ++ (a ++ r0)) = true := by
      apply hwf (a ++ r0) m
      simpa [List.append_assoc] using hs
    by_cases hr0 : r0 = []
    · subst hr0; simpa using hd
    · apply ih hr0
      rw [FS.isDir_iff] at hd
      simp [hd]

theorem none_under {fs : FS} (hwf : fs.WF) {p : Path} (h : fs.stat p = none) (r : Path) :
    fs.stat (p ++ r) = none := by
  by_cases hr : r = []
  · subst hr; simpa using h
  · cases hs : fs.stat (p ++ r) with
    | none => rfl
    | some e =>
      have := @dir_above fs []
        (fun r n hh => by simpa using @FS.WF.parent fs hwf r n (by simpa using hh)) p r hr
        (by simp [hs])
      rw [FS.isDir_iff] at this
      simp at this
      rw [this] at h
      simp at h

theorem child_under {dst : Path} {n m : String} {r : Path}
    (h : (dst ++ [n]) <+: (dst ++ m :: r)) : n = m := by
  rw [List.prefix_append_right_inj] at h
  obtain ⟨t, ht⟩ := h
  simp at ht
  exact ht.1

theorem child_over {dst : Path} {n m : String} {r : Path}
    (h : (dst ++ m :: r) <+: (dst ++ [n])) : m = n := by
  rw [List.prefix_append_right_inj] at h
  obtain ⟨t, ht⟩ := h
  simp at ht
  exact ht.1

theorem not_child_over {dst : Path} {n : String} {r : Path} : ¬ (dst ++ n :: r) <+: dst := by
  intro h
  have := h.length_le
  simp at this

/-- The subdirectory loop, given that each recursive call leaves `g` beneath
its destination, into a fresh place. -/
theorem copyDirs_copies (recurse : World → Path → Path → Option (Bool × World))
    (w : World) (src dst : Path) (g : Path → Option Entry)
    (h1 : ¬ src <+: dst) (h2 : ¬ dst <+: src) :
    ∀ (ns : List String),
      (∀ n, n ∈ ns → ∀ wi,
        (∀ r, wi.fs.stat (src ++ n :: r) = w.fs.stat (src ++ n :: r)) →
        w.fs.isDir (src ++ [n]) = true →
        (∀ q, q <+: dst → wi.fs.isDir q = true) →
        (∀ r, wi.fs.stat (dst ++ n :: r) = none) →
        ∃ w1, recurse wi (src ++ [n]) (dst ++ [n]) = some (true, w1) ∧
          (∀ r, w1.fs.stat (dst ++ n :: r) = g (n :: r)) ∧
          Frame (dst ++ [n]) wi w1) →
      ∀ (wi : World), ns.Nodup →
      (∀ n, n ∈ ns → w.fs.isDir (src ++ [n]) = true) →
      (∀ r, wi.fs.stat (src ++ r) = w.fs.stat (src ++ r)) →
      (∀ q, q <+: dst → wi.fs.isDir q = true) →
      (∀ n, n ∈ ns → ∀ r, wi.fs.stat (dst ++ n :: r) = none) →
      ∃ w', copyDirs recurse src dst ns wi = some (true, w') ∧
        (∀ n, n ∈ ns → ∀ r, w'.fs.stat (dst ++ n :: r) = g (n :: r)) ∧
        (∀ q, (∀ n, n ∈ ns → ¬ (dst ++ [n]) <+: q) → w'.fs.stat q = wi.fs.stat q) := by
  intro ns
  induction ns with
  | nil => intro _ wi _ _ _ _ _; exact ⟨wi, rfl, by simp, fun _ _ => rfl⟩
  | cons n ns ih =>
    intro hrec wi hnd hdirs hsrc hdst hfresh
    have hnd' := List.nodup_cons.mp hnd
    obtain ⟨w1, hw1, hcopy, hfr⟩ := hrec n (List.mem_cons_self _ _) wi (fun r => hsrc (n :: r))
      (hdirs n (List.mem_cons_self _ _)) hdst (hfresh n (List.mem_cons_self _ _))
    have hdst1 : ∀ q, q <+: dst → w1.fs.isDir q = true := by
      intro q hq
      have hd := hdst q hq
      rw [FS.isDir_iff] at hd ⊢
      rw [hfr q (fun hb => by
        have := (hb.1.trans hq).length_le
        simp at this) (Or.inl (by simp [hd]))]
      exact hd
    obtain ⟨w', hw', hA, hB⟩ := ih (fun m hm => hrec m (List.mem_cons_of_mem _ hm)) w1 hnd'.2
      (fun m hm => hdirs m (List.mem_cons_of_mem _ hm))
      (fun r => by rw [hfr.concat.sameUnder h1 h2 r, hsrc r])
      hdst1
      (fun m hm r => by
        have hmn : n ≠ m := fun e => hnd'.1 (e ▸ hm)
        rw [hfr _ (fun hb => hmn (child_under hb.1))
          (Or.inr (fun hq => hmn (child_over hq).symm))]
        exact hfresh m (List.mem_cons_of_mem _ hm) r)
    refine ⟨w', by simp only [copyDirs, hw1, hw'], ?_, ?_⟩
    · intro m hm r
      rcases List.mem_cons.mp hm with rfl | hm
      · rw [hB _ (fun k hk hp => hnd'.1 (by rw [← child_under hp]; exact hk))]
        exact hcopy r
      · exact hA m hm r
    · intro q hq
      rw [hB q (fun m hm => hq m (List.mem_cons_of_mem _ hm))]
      have hnq := hq n (List.mem_cons_self _ _)
      apply hfr q (fun hb => hnq hb.1)
      by_cases hqn : q <+: dst ++ [n]
      · left
        rcases List.prefix_concat_iff.mp hqn with he | hp
        · exact absurd (he ▸ List.prefix_refl _) hnq
        · have := hdst q hp
          rw [FS.isDir_iff] at this
          simp [this]
      · exact Or.inr hqn

/-- On a reliable provider, `copyRecursively` from a directory tree into a
place where nothing is yet and that does not overlap the source returns
success, and what is then at and beneath the destination is what is at and
beneath the source along names that are not hidden; nothing arrives for a
relative path with a hidden component. -/
theorem copyRecursively_copies (P : Provider) (hP : ∀ w op, P.refuses w op = false) :
    ∀ (N fuel : Nat) (w : World) (src dst : Path), N < fuel →
    ¬ src <+: dst → ¬ dst <+: src →
    w.fs.isDir src = true →
    (∀ r, (w.fs.stat (src ++ r)).isSome = true → r.length < N) →
    (∀ r n, (w.fs.stat (src ++ r ++ [n])).isSome = true → w.fs.isDir (src ++ r) = true) →
    (∀ q, q <+: dst → w.fs.isFile q = false) →
    (∀ r, w.fs.stat (dst ++ r) = none) →
    ∃ w', copyRecursively P fuel w src dst = some (true, w') ∧
      ∀ r, w'.fs.stat (dst ++ r) = if r.any hidden then none else w.fs.stat (src ++ r) := by
  intro N
  induction N with
  | zero =>
    intro fuel w src dst _ _ _ hdir hb
    have := hb [] (by rw [FS.isDir_iff] at hdir; simp [hdir])
    simp at this
  | succ k ih =>
    intro fuel w src dst hf h1 h2 hdir hb hwf hnofile hfresh
    obtain ⟨f, rfl⟩ : ∃ f, fuel = f + 1 := ⟨fuel - 1, by omega⟩
    have hsrcdir := FS.isDir_iff.mp hdir
    -- the destination directory is created
    have hdst0 : QDir.exists w dst = false := by
      have := hfresh []
      simp only [List.append_nil] at this
      simp [QDir.exists, FS.isDir, this]
    have hens : ensureDir P w dst = QDir.mkpath P w dst := by
      simp [ensureDir, hdst0]
    have hmk : (QDir.mkpath P w dst).1 = true := QDir.mkpath_reliable P w dst (hP _ _) hnofile
    have s0 := QDir.mkpath_true P w dst hmk
    generalize hw0 : (QDir.mkpath P w dst).2 = w0 at s0
    have hfr0 : Frame dst w w0 := hw0 ▸ Frame.of_mkpath P (List.prefix_refl _) w
    have s0dst : ∀ q, q <+: dst → w0.fs.isDir q = true := by
      intro q hq
      rw [FS.isDir_iff, s0 q]
      cases hs : w.fs.stat q with
      | none => simp [hq]
      | some e =>
        cases e with
        | dir => simp
        | file c =>
          have := hnofile q hq
          simp [FS.isFile, hs] at this
    have s0below : ∀ n r, w0.fs.stat (dst ++ n :: r) = none := by
      intro n r
      rw [s0, if_neg (fun h => not_child_over h.1)]
      exact hfresh _
    -- the files are listed and copied
    have hl1fs := QDir.entryInfoList_fs P w0 src Filter.Files
    have hl1 := QDir.entryInfoList_reliable P w0 src Filter.Files (hP _ _)
      (by rw [FS.isDir_iff, ← List.append_nil src, hfr0.sameUnder h1 h2 []]; simpa using hsrcdir)
    have hl1nd := QDir.entryInfoList_nodup P w0 src Filter.Files
    rcases hl1e : QDir.entryInfoList P w0 src Filter.Files with ⟨names1, w1⟩
    rw [hl1e] at hl1fs hl1 hl1nd
    simp only at hl1fs hl1 hl1nd
    subst hl1
    have hne : src ≠ dst := fun e => h1 (e ▸ List.prefix_refl _)
    obtain ⟨w2, hcf, hw2a, hw2b⟩ := copyFiles_copies P hP src dst hne (w0.fs.fileNames src) w1
      hl1nd
      (fun n hn => by rw [hl1fs]; exact (FS.mem_fileNames.mp hn).1)
      (fun n _ => by rw [hl1fs]; exact s0below n [])
      (by rw [hl1fs]; exact s0dst dst (List.prefix_refl _))
    have hfr2 : Frame dst w w2 := by
      have e1 : Frame dst w0 w1 := fun q _ _ => by rw [hl1fs]
      have e2 : Frame dst w1 w2 := by
        have := Frame.of_copyFiles P src dst (w0.fs.fileNames src) w1
        rw [hcf] at this; exact this
      exact hfr0.trans (e1.trans e2)
    have hsrc2 : ∀ r, w2.fs.stat (src ++ r) = w.fs.stat (src ++ r) := hfr2.sameUnder h1 h2
    -- the subdirectories are listed and copied
    have hl2fs := QDir.entryInfoList_fs P w2 src Filter.Dirs
    have hl2 := QDir.entryInfoList_reliable P w2 src Filter.Dirs (hP _ _)
      (by rw [FS.isDir_iff, ← List.append_nil src, hsrc2 []]; simpa using hsrcdir)
    have hl2nd := QDir.entryInfoList_nodup P w2 src Filter.Dirs
    rcases hl2e : QDir.entryInfoList P w2 src Filter.Dirs with ⟨names2, w3⟩
    rw [hl2e] at hl2fs hl2 hl2nd
    simp only at hl2fs hl2 hl2nd
    subst hl2
    have hdirname : ∀ n, n ∈ w2.fs.dirNames src ↔
        w.fs.isDir (src ++ [n]) = true ∧ hidden n = false := by
      intro n
      rw [FS.mem_dirNames, FS.isDir_iff, FS.isDir_iff, hsrc2 [n]]
    have hfilename : ∀ n, n ∈ w0.fs.fileNames src ↔
        w.fs.isFile (src ++ [n]) = true ∧ hidden n = false := by
      intro n
      rw [FS.mem_fileNames, FS.isFile_iff, FS.isFile_iff, hfr0.sameUnder h1 h2 [n]]
    have hw2stat : ∀ q, (∀ n, w.fs.isFile (src ++ [n]) = true → hidden n = false →
        q ≠ dst ++ [n]) → w2.fs.stat q = w0.fs.stat q := by
      intro q hq
      rw [hw2b q (fun n hn => hq n ((hfilename n).mp hn).1 ((hfilename n).mp hn).2), hl1fs]
    obtain ⟨w', hcd, hA, hB⟩ := copyDirs_copies (copyRecursively P f) w src dst
      (fun r => if r.any hidden then none else w.fs.stat (src ++ r)) h1 h2
      (w2.fs.dirNames src)
      (fun n hn wi hsame hnd hdd hfr => by
        obtain ⟨w1', hres, hcopy⟩ := ih f wi (src ++ [n]) (dst ++ [n]) (by omega)
          (disjoint_concat h1 n) (disjoint_concat h2 n)
          (by rw [FS.isDir_iff] at hnd ⊢; rw [← hnd]; simpa using hsame [])
          (fun r hr => by
            have := hb (n :: r) (by
              rw [← hsame r]; simpa [List.append_assoc] using hr)
            simpa using this)
          (fun r m hr => by
            have e1 : src ++ [n] ++ r ++ [m] = src ++ n :: (r ++ [m]) := by simp
            have e2 : src ++ [n] ++ r = src ++ n :: r := by simp
            rw [e1, hsame] at hr
            rw [e2, FS.isDir_iff, hsame, ← FS.isDir_iff]
            have := hwf (n :: r) m (by simpa using hr)
            simpa using this)
          (fun q hq => by
            rcases List.prefix_concat_iff.mp hq with he | hp
            · subst he
              have := hfr []
              simp [FS.isFile, this]
            · have := FS.isDir_iff.mp (hdd q hp)
              simp [FS.isFile, this])
          (fun r => by simpa using hfr r)
        refine ⟨w1', hres, fun r => ?_, Frame.of_copyRecursively P f wi _ _ _ hres⟩
        have e := hcopy r
        have hvis := ((hdirname n).mp hn).2
        have e2 : dst ++ [n] ++ r = dst ++ n :: r := by simp
        have e3 : src ++ [n] ++ r = src ++ n :: r := by simp
        rw [e2, e3, hsame r] at e
        rw [e]
        simp [hvis])
      w3 hl2nd
      (fun n hn => ((hdirname n).mp hn).1)
      (fun r => by rw [hl2fs]; exact hsrc2 r)
      (fun q hq => by
        rw [hl2fs, FS.isDir_iff, hw2stat q (fun n _ _ he => by
          have := hq.length_le
          rw [he] at this
          simp at this), ← FS.isDir_iff]
        exact s0dst q hq)
      (fun n hn r => by
        rw [hl2fs, hw2stat _ (fun m hm _ he => by
          have := List.append_cancel_left he
          simp at this
          have hd := FS.isDir_iff.mp ((hdirname n).mp hn).1
          obtain ⟨c, hc⟩ := FS.isFile_iff.mp hm
          rw [← this.1, hd] at hc
          simp at hc)]
        exact s0below n r)
    refine ⟨w', ?_, ?_⟩
    · simp only [copyRecursively, QDir.exists, hdir, hens, hmk, hw0, Bool.not_true,
        Bool.false_eq_true, if_false, hl1e, hcf, hl2e, hcd]
    · intro r
      cases r with
      | nil =>
        simp only [List.any_nil, Bool.false_eq_true, if_false]
        rw [List.append_nil, List.append_nil, hB dst (fun n _ h => by
          have := h.length_le
          simp at this), hl2fs, hw2stat dst (fun n _ _ he => by
          have := congrArg List.length he
          simp at this), hsrcdir]
        exact FS.isDir_iff.mp (s0dst dst (List.prefix_refl _))
      | cons n r =>
        by_cases hh : hidden n = true
        · -- a hidden name is never listed: nothing arrives beneath it
          have hany : (n :: r).any hidden = true := by simp [hh]
          rw [hany, if_pos rfl, hB _ (fun m hm hp => by
            have e : m = n := child_under hp
            have := ((hdirname m).mp hm).2
            rw [e, hh] at this
            simp at this), hl2fs, hw2stat _ (fun m _ hv he => by
            have := List.append_cancel_left he
            simp at this
            rw [← this.1, hh] at hv
            simp at hv)]
          exact s0below n r
        · have hvis : hidden n = false := by simpa using hh
          have hany : (n :: r).any hidden = r.any hidden := by simp [hvis]
          by_cases hd : w.fs.isDir (src ++ [n]) = true
          · exact hA n ((hdirname n).mpr ⟨hd, hvis⟩) r
          · rw [hB _ (fun m hm hp => hd (by
              have e : m = n := child_under hp
              rw [← e]; exact ((hdirname m).mp hm).1)), hl2fs]
            by_cases hfl : w.fs.isFile (src ++ [n]) = true ∧ r = []
            · obtain ⟨hfl, rfl⟩ := hfl
              rw [hw2a n ((hfilename n).mpr ⟨hfl, hvis⟩), hl1fs]
              simp only [List.any_cons, hvis, List.any_nil, Bool.or_self, Bool.false_eq_true,
                if_false]
              exact hfr0.sameUnder h1 h2 [n]
            · rw [hw2stat _ (fun m hm _ he => by
                have := List.append_cancel_left he
                simp at this
                exact hfl ⟨this.1 ▸ hm, this.2⟩), s0below]
              have hnone : w.fs.stat (src ++ n :: r) = none := by
                by_cases hr : r = []
                · subst hr
                  cases hs : w.fs.stat (src ++ [n]) with
                  | none => rfl
                  | some e =>
                    cases e with
                    | dir => exact absurd (FS.isDir_iff.mpr hs) hd
                    | file c => exact absurd ⟨FS.isFile_iff.mpr ⟨c, hs⟩, rfl⟩ hfl
                · cases hs : w.fs.stat (src ++ n :: r) with
                  | none => rfl
                  | some e =>
                    exact absurd (dir_above hwf [n] r hr (by simp [hs])) hd
              rw [hnone]
              simp

theorem FS.WF.tree {fs : FS} (hwf : fs.WF) (src : Path) :
    ∀ r n, (fs.stat (src ++ r ++ [n])).isSome = true → fs.isDir (src ++ r) = true :=
  fun _ _ h => hwf.parent h

/-- In a well-formed store every path above a directory is a directory. -/
theorem FS.WF.dirs_above {fs : FS} (hwf : fs.WF) {q d : Path} (hq : q <+: d)
    (hd : fs.isDir d = true) : fs.isDir q = true := by
  obtain ⟨t, rfl⟩ := hq
  by_cases ht : t = []
  · subst ht; simpa using hd
  · have := @FileExplorer.dir_above fs [] (fun r n h => by
      simpa using @FS.WF.parent fs hwf r n (by simpa using h)) q t ht
      (by rw [FS.isDir_iff] at hd; simp [hd])
    simpa using this

theorem fileName_cases (a : Path) : fileName a = [] ∨ ∃ n, fileName a = [n] := by
  unfold fileName
  cases a.getLast? with
  | none => exact Or.inl rfl
  | some n => exact Or.inr ⟨n, rfl⟩

theorem above_newPath {q d a : Path} (hq : q <+: d ++ fileName a) (hne : q ≠ d ++ fileName a) :
    q <+: d := by
  rcases fileName_cases a with h | ⟨n, h⟩
  · rw [h] at hq; simpa using hq
  · rw [h] at hq hne
    rcases List.prefix_concat_iff.mp hq with h | h
    · exact absurd h hne
    · exact h

theorem depth_bound (fs : FS) (a : Path) :
    ∀ r, (fs.stat (a ++ r)).isSome = true → r.length < fs.depth + 1 := by
  intro r h
  have := FS.length_le_depth h
  simp at this
  omega

/-- C1 (amended). Copy of a directory `a`, then paste into a directory `d`
where `d/name(a)` names nothing and is neither `a` nor inside `a`, on a
provider that refuses nothing and a well-formed file system: the paste
returns success (for every budget above the depth of the store); what is at
and beneath `d/name(a)` afterwards is, relative path by relative path, what
was at and beneath `a` at the time of the paste wherever no component of the
relative path is hidden, and nothing where a component is hidden; and no
path outside `d/name(a)` has changed, `a` and its content included. -/
theorem C1_directory_copy_paste_roundtrip (P : Provider)
    (hP : ∀ w op, P.refuses w op = false) (s0 s : MainWindow) (a d : Path)
    (hsel : s0.currentIndex = some a)
    (hclip : s.copiedPath = (copyItem s0).copiedPath)
    (hmode : s.copyIsCut = (copyItem s0).copyIsCut)
    (hroot : s.rootIndex = some d)
    (hwf : s.world.fs.WF)
    (ha : s.world.fs.isDir a = true) (hd : s.world.fs.isDir d = true)
    (hfresh : s.world.fs.stat (d ++ fileName a) = none)
    (hout : ¬ a <+: d ++ fileName a)
    (fuel : Nat) (hfuel : s.world.fs.depth + 2 ≤ fuel) :
    ∃ t, pasteItem P fuel s = some (PasteOutcome.pasted, t) ∧
      (∀ r, t.world.fs.stat (d ++ fileName a ++ r) =
        if r.any hidden then none else s.world.fs.stat (a ++ r)) ∧
      (∀ q, ¬ (d ++ fileName a) <+: q → t.world.fs.stat q = s.world.fs.stat q) := by
  have hcp : s.copiedPath = some a := by rw [hclip]; simp [copyItem, hsel]
  have hcut : s.copyIsCut = false := by rw [hmode]; simp [copyItem, hsel]
  have hin : ¬ (d ++ fileName a) <+: a := by
    rintro ⟨t, ht⟩
    have := none_under hwf hfresh t
    rw [ht] at this
    rw [FS.isDir_iff, this] at ha
    simp at ha
  have hnofile : ∀ q, q <+: d ++ fileName a → s.world.fs.isFile q = false := by
    intro q hq
    by_cases he : q = d ++ fileName a
    · simp [FS.isFile, he, hfresh]
    · have hqd : q <+: d := above_newPath hq he
      have := FS.isDir_iff.mp (hwf.dirs_above hqd hd)
      simp [FS.isFile, this]
  obtain ⟨w', hres, hcopy⟩ := copyRecursively_copies P hP (s.world.fs.depth + 1) fuel s.world a
    (d ++ fileName a) (by omega) hout hin ha (depth_bound _ a) (hwf.tree a) hnofile
    (none_under hwf hfresh)
  have hfr := Frame.of_copyRecursively P fuel s.world a _ _ hres
  refine ⟨{ s with world := w', statusMessage := "Pasted to: " ++ pathString d }, ?_, hcopy, ?_⟩
  · simp [pasteItem, hcp, QFileInfo.isDir, ha, hroot, filePath, hres, hcut]
  · intro q hq
    apply hfr q (fun hb => hq hb.1)
    by_cases hqd : q <+: d ++ fileName a
    · left
      have hne : q ≠ d ++ fileName a := fun e => hq (e ▸ List.prefix_refl _)
      have hqd' : q <+: d := above_newPath hqd hne
      have := FS.isDir_iff.mp (hwf.dirs_above hqd' hd)
      simp [this]
    · exact Or.inr hqd

/-- C3. Copy of a regular file `f`, then paste into a directory `d` that has no entry
named `name(f)`, when the provider does not refuse the copy: the paste
returns success, `f` is as it was, `d/name(f)` holds the content of `f`, and
no other path has changed. -/
theorem C3_file_copy_paste (P : Provider) (s0 s : MainWindow) (f d : Path)
    (hsel : s0.currentIndex = some f)
    (hclip : s.copiedPath = (copyItem s0).copiedPath)
    (hmode : s.copyIsCut = (copyItem s0).copyIsCut)
    (hroot : s.rootIndex = some d)
    (hf : s.world.fs.isFile f = true) (hd : s.world.fs.isDir d = true)
    (hfresh : s.world.fs.stat (d ++ fileName f) = none)
    (hP : P.refuses s.world (Op.copy f (d ++ fileName f)) = false)
    (fuel : Nat) :
    ∃ t, pasteItem P fuel s = some (PasteOutcome.pasted, t) ∧
      t.world.fs.stat f = s.world.fs.stat f ∧
      t.world.fs.stat (d ++ fileName f) = s.world.fs.stat f ∧
      (∀ q, q ≠ d ++ fileName f → t.world.fs.stat q = s.world.fs.stat q) := by
  have hcp : s.copiedPath = some f := by rw [hclip]; simp [copyItem, hsel]
  have hcut : s.copyIsCut = false := by rw [hmode]; simp [copyItem, hsel]
  obtain ⟨c, hc⟩ := FS.isFile_iff.mp hf
  have hnd : s.world.fs.isDir f = false := by simp [FS.isDir, hc]
  have hfne : f ≠ [] := by
    intro e; subst e; simp [FS.stat] at hc
  obtain ⟨name, hname⟩ : ∃ name, fileName f = [name] := by
    unfold fileName
    cases h : f.getLast? with
    | none => exact absurd (List.getLast?_eq_none_iff.mp h) hfne
    | some n => exact ⟨n, rfl⟩
  have hpar : s.world.fs.isDir (d ++ fileName f).dropLast = true := by
    rw [hname]; simpa using hd
  have hcopy := QFile.copy_reliable P s.world f (d ++ fileName f) c hP hc hfresh hpar
  have hne : f ≠ d ++ fileName f := by
    intro e; rw [← e, hc] at hfresh; simp at hfresh
  have e1 : ∀ q, q ≠ d ++ fileName f →
      (QFile.copy P s.world f (d ++ fileName f)).2.fs.stat q = s.world.fs.stat q := by
    intro q hq
    rw [hcopy]; simp only [World.done]; exact FS.stat_put_ne _ _ hq
  have e2 : (QFile.copy P s.world f (d ++ fileName f)).2.fs.stat (d ++ fileName f)
      = s.world.fs.stat f := by
    rw [hcopy]; simp only [World.done]
    rw [FS.stat_put_self _ _ (by rw [hname]; simp), hc]
  have e3 : (QFile.copy P s.world f (d ++ fileName f)).1 = true := by rw [hcopy]
  rcases hcw : QFile.copy P s.world f (d ++ fileName f) with ⟨ok, w1⟩
  rw [hcw] at e1 e2 e3
  simp only at e1 e2 e3
  subst e3
  refine ⟨{ s with world := w1, statusMessage := "Pasted to: " ++ pathString d }, ?_, ?_, ?_, ?_⟩
  · simp [pasteItem, hcp, QFileInfo.isDir, hnd, hroot, filePath, QFile.exists, FS.exist, hfresh,
      hcw, hcut]
  · exact e1 f hne
  · exact e2
  · exact e1

/-- The copy step of `pasteItem` on a source that the destination path does
not overlap: it returns, and leaves everything at and beneath the source as
it was. -/
theorem paste_copy_step (P : Provider) (w : World) (x dst : Path) (fuel : Nat)
    (h1 : ¬ x <+: dst) (h2 : ¬ dst <+: x) (hfuel : w.fs.depth + 2 ≤ fuel) :
    (∃ res, copyRecursively P fuel w x dst = some res ∧
      ∀ r, res.2.fs.stat (x ++ r) = w.fs.stat (x ++ r)) ∧
    (∀ r, (QFile.copy P (if QFile.exists w dst then (QFile.remove P w dst).2 else w) x dst).2.fs.stat
      (x ++ r) = w.fs.stat (x ++ r)) := by
  constructor
  · obtain ⟨res, hres⟩ := copyRecursively_returns P (w.fs.depth + 1) fuel w x dst (by omega) h1 h2
      (depth_bound _ x)
    exact ⟨res, hres, (Frame.of_copyRecursively P fuel w x dst res hres).sameUnder h1 h2⟩
  · intro r
    have hne : x ++ r ≠ dst := fun e => h1 (e ▸ List.prefix_append x r)
    rw [QFile.copy_stat_ne P _ x hne]
    split
    · exact QFile.remove_stat_ne P w hne
    · rfl

theorem pasteItem_returns (P : Provider) (s : MainWindow) (x : Path) (fuel : Nat)
    (hclip : s.copiedPath = some x)
    (h1 : ¬ x <+: newPath s x) (h2 : ¬ newPath s x <+: x)
    (hfuel : s.world.fs.depth + 2 ≤ fuel) :
    ∃ o t, pasteItem P fuel s = some (o, t) := by
  obtain ⟨⟨⟨ok, w1⟩, hres, -⟩, -⟩ := paste_copy_step P s.world x (newPath s x) fuel h1 h2 hfuel
  simp only [newPath] at hres
  simp only [pasteItem, hclip]
  split
  · rw [hres]
    cases ok <;> exact ⟨_, _, rfl⟩
  · split <;> exact ⟨_, _, rfl⟩

/-- A paste whose destination path `d/name(x)` is not `x`, not inside `x` and
not above `x`: for every provider and both clipboard modes it returns (for
every budget above the depth of the store); it reports success exactly when
its copy step returned success; after an error return everything at and
beneath `x` is as it was; and anything at or beneath `x` is changed only
after a copy step that succeeded, in mode Cut. -/
theorem paste_without_overlap_keeps_source (P : Provider) (s : MainWindow) (x : Path)
    (fuel : Nat) (hclip : s.copiedPath = some x)
    (h1 : ¬ x <+: newPath s x) (h2 : ¬ newPath s x <+: x)
    (hfuel : s.world.fs.depth + 2 ≤ fuel) :
    ∃ o t ok w, pasteItem P fuel s = some (o, t) ∧
      (copyRecursively P fuel s.world x (newPath s x) = some (ok, w) ∨
        QFile.copy P (if QFile.exists s.world (newPath s x)
          then (QFile.remove P s.world (newPath s x)).2 else s.world) x (newPath s x)
          = (ok, w)) ∧
      (o = PasteOutcome.pasted ↔ ok = true) ∧
      (o = PasteOutcome.failed ↔ ok = false) ∧
      (∀ r, w.fs.stat (x ++ r) = s.world.fs.stat (x ++ r)) ∧
      (ok = false → t.world = w) ∧
      ((∃ r, t.world.fs.stat (x ++ r) ≠ s.world.fs.stat (x ++ r)) →
        ok = true ∧ s.copyIsCut = true) := by
  obtain ⟨⟨⟨ok, w1⟩, hres, hsame⟩, hfile⟩ :=
    paste_copy_step P s.world x (newPath s x) fuel h1 h2 hfuel
  simp only [newPath] at hres hfile ⊢
  simp only [pasteItem, hclip]
  split
  · rw [hres]
    cases ok with
    | false =>
      refine ⟨_, _, false, w1, rfl, Or.inl rfl, by simp, by simp, hsame, fun _ => rfl, ?_⟩
      rintro ⟨r, hr⟩
      exact absurd (hsame r) hr
    | true =>
      refine ⟨_, _, true, w1, rfl, Or.inl rfl, by simp, by simp, hsame, by simp, ?_⟩
      rintro ⟨r, hr⟩
      refine ⟨rfl, ?_⟩
      cases hcut : s.copyIsCut with
      | true => rfl
      | false =>
        simp only [hcut, Bool.false_eq_true, if_false] at hr
        exact absurd (hsame r) hr
  · rcases hc : QFile.copy P (if QFile.exists s.world (filePath s.rootIndex ++ fileName x) = true
        then (QFile.remove P s.world (filePath s.rootIndex ++ fileName x)).2 else s.world) x
        (filePath s.rootIndex ++ fileName x) with ⟨ok, w2⟩
    rw [hc] at hfile
    simp only at hfile
    cases ok with
    | false =>
      refine ⟨_, _, false, w2, rfl, Or.inr rfl, by simp, by simp, hfile, fun _ => rfl, ?_⟩
      rintro ⟨r, hr⟩
      exact absurd (hfile r) hr
    | true =>
      refine ⟨_, _, true, w2, rfl, Or.inr rfl, by simp, by simp, hfile, by simp, ?_⟩
      rintro ⟨r, hr⟩
      refine ⟨rfl, ?_⟩
      cases hcut : s.copyIsCut with
      | true => rfl
      | false =>
        simp only [hcut, Bool.false_eq_true, if_false] at hr
        exact absurd (hfile r) hr

theorem pasteItem_clipboard (P : Provider) (fuel : Nat) (s : MainWindow) (o : PasteOutcome)
    (t : MainWindow) (h : pasteItem P fuel s = some (o, t)) :
    t.copiedPath = s.copiedPath ∧ t.copyIsCut = s.copyIsCut := by
  simp only [pasteItem] at h
  split at h
  · simp only [Option.some.injEq, Prod.mk.injEq] at h
    obtain ⟨-, rfl⟩ := h
    exact ⟨rfl, rfl⟩
  · split at h
    · split at h
      · simp at h
      · simp only [Option.some.injEq, Prod.mk.injEq] at h
        obtain ⟨-, rfl⟩ := h
        exact ⟨rfl, rfl⟩
      · simp only [Option.some.injEq, Prod.mk.injEq] at h
        obtain ⟨-, rfl⟩ := h
        exact ⟨rfl, rfl⟩
    · split at h
      · simp only [Option.some.injEq, Prod.mk.injEq] at h
        obtain ⟨-, rfl⟩ := h
        exact ⟨rfl, rfl⟩
      · simp only [Option.some.injEq, Prod.mk.injEq] at h
        obtain ⟨-, rfl⟩ := h
        exact ⟨rfl, rfl⟩

/-- C7. `pasteItem` never touches the clipboard: with an empty clipboard it
returns at once and leaves the whole window as it was; whenever it returns,
by an error return or after a successful paste, `copiedPath` and `copyIsCut`
are what they were, so a second paste starts from the same source path and
mode. -/
theorem C7_paste_keeps_clipboard (P : Provider) (fuel : Nat) (s : MainWindow) :
    (s.copiedPath = none → pasteItem P fuel s = some (PasteOutcome.emptyClipboard, s)) ∧
    (∀ o t, pasteItem P fuel s = some (o, t) →
      t.copiedPath = s.copiedPath ∧ t.copyIsCut = s.copyIsCut ∧
      ∀ fuel2, (pasteItem P fuel2 t).isSome = true →
        ∃ o2 t2, pasteItem P fuel2 t = some (o2, t2) ∧
          t2.copiedPath = s.copiedPath ∧ t2.copyIsCut = s.copyIsCut) := by
  have key := pasteItem_clipboard P
  refine ⟨fun h => by simp [pasteItem, h], fun o t h => ?_⟩
  obtain ⟨e1, e2⟩ := key fuel s o t h
  refine ⟨e1, e2, fun fuel2 h2 => ?_⟩
  obtain ⟨⟨o2, t2⟩, h3⟩ := Option.isSome_iff_exists.mp h2
  obtain ⟨e3, e4⟩ := key fuel2 t o2 t2 h3
  exact ⟨o2, t2, h3, e3.trans e1, e4.trans e2⟩

theorem copyDirs_succeeds (I : World → Prop)
    (recurse : World → Path → Path → Option (Bool × World))
    (src dst : Path) (ns : List String)
    (hrec : ∀ n, n ∈ ns → ∀ w, I w →
      ∃ w1, recurse w (src ++ [n]) (dst ++ [n]) = some (true, w1) ∧ I w1) :
    ∀ w, I w → ∃ w', copyDirs recurse src dst ns w = some (true, w') ∧ I w' := by
  induction ns with
  | nil => intro w hw; exact ⟨w, rfl, hw⟩
  | cons n ns ih =>
    intro w hw
    obtain ⟨w1, hr, hI⟩ := hrec n (List.mem_cons_self _ _) w hw
    simp only [copyDirs, hr]
    exact ih (fun m hm => hrec m (List.mem_cons_of_mem _ hm)) w1 hI

/-- Copying a directory tree that holds no regular file onto itself returns
success and leaves the file system as it is, whatever the provider does. -/
theorem copyRecursively_self (P : Provider) : ∀ (N fuel : Nat) (w : World) (x : Path),
    N < fuel → w.fs.isDir x = true →
    (∀ r, (w.fs.stat (x ++ r)).isSome = true → r.length < N) →
    (∀ r, w.fs.isFile (x ++ r) = false) →
    ∃ w', copyRecursively P fuel w x x = some (true, w') ∧ w'.fs = w.fs := by
  intro N
  induction N with
  | zero =>
    intro fuel w x _ hdir hb
    have := hb [] (by rw [FS.isDir_iff] at hdir; simp [hdir])
    simp at this
  | succ k ih =>
    intro fuel w x hf hdir hb hnf
    obtain ⟨f, rfl⟩ : ∃ f, fuel = f + 1 := ⟨fuel - 1, by omega⟩
    have hens : ensureDir P w x = (true, w) := by simp [ensureDir, QDir.exists, hdir]
    have hl1fs := QDir.entryInfoList_fs P w x Filter.Files
    have hl1 : (QDir.entryInfoList P w x Filter.Files).1 = [] := by
      apply List.eq_nil_iff_forall_not_mem.mpr
      intro n hn
      have := QDir.entryInfoList_files P w x hn
      rw [hnf [n]] at this
      simp at this
    rcases hl1e : QDir.entryInfoList P w x Filter.Files with ⟨names1, w1⟩
    rw [hl1e] at hl1fs hl1
    simp only at hl1fs hl1
    subst hl1
    have hl2fs := QDir.entryInfoList_fs P w1 x Filter.Dirs
    have hl2 := fun n => @QDir.entryInfoList_dirs P w1 x n
    rcases hl2e : QDir.entryInfoList P w1 x Filter.Dirs with ⟨names2, w2⟩
    rw [hl2e] at hl2fs hl2
    simp only at hl2fs hl2
    obtain ⟨w', hcd, hI⟩ := copyDirs_succeeds (fun wi => wi.fs = w.fs) (copyRecursively P f) x x
      names2
      (fun n hn wi hwi => by
        obtain ⟨w1', hres, hfs⟩ := ih f wi (x ++ [n]) (by omega)
          (by rw [hwi, ← hl1fs]; exact hl2 n hn)
          (fun r hr => by
            have := hb (n :: r) (by rw [hwi] at hr; simpa [List.append_assoc] using hr)
            simpa using this)
          (fun r => by
            have := hnf (n :: r)
            rw [hwi]; simpa [List.append_assoc] using this)
        exact ⟨w1', hres, hfs.trans hwi⟩)
      w2 (hl2fs.trans hl1fs)
    refine ⟨w', ?_, hI⟩
    simp only [copyRecursively, QDir.exists, hdir, hens, Bool.not_true, Bool.false_eq_true,
      if_false, hl1e, copyFiles, hl2e, hcd]

/-- Copy of a directory `x`, then paste into its own parent, so that the path
written to is `x` itself: when no regular file lies at any depth beneath `x`
(the freshly created empty directory included), the paste returns success
and the file system afterwards is the file system before, whatever the
provider does. -/
theorem self_paste_without_files (P : Provider) (s0 s : MainWindow) (x : Path)
    (hsel : s0.currentIndex = some x)
    (hclip : s.copiedPath = (copyItem s0).copiedPath)
    (hmode : s.copyIsCut = (copyItem s0).copyIsCut)
    (hself : newPath s x = x)
    (hx : s.world.fs.isDir x = true)
    (hnofile : ∀ r, s.world.fs.isFile (x ++ r) = false)
    (fuel : Nat) (hfuel : s.world.fs.depth + 2 ≤ fuel) :
    ∃ t, pasteItem P fuel s = some (PasteOutcome.pasted, t) ∧ t.world.fs = s.world.fs := by
  have hcp : s.copiedPath = some x := by rw [hclip]; simp [copyItem, hsel]
  have hcut : s.copyIsCut = false := by rw [hmode]; simp [copyItem, hsel]
  obtain ⟨w', hres, hfs⟩ := copyRecursively_self P (s.world.fs.depth + 1) fuel s.world x
    (by omega) hx (depth_bound _ x) hnofile
  simp only [newPath] at hself
  refine ⟨{ s with world := w', statusMessage := "Pasted to: " ++ pathString (filePath s.rootIndex) },
    ?_, hfs⟩
  simp [pasteItem, hcp, QFileInfo.isDir, hx, hself, hres, hcut]

theorem syncTree_world (s : MainWindow) (p : Path) : (syncTree s p).world = s.world := by
  unfold syncTree; split <;> rfl

theorem syncTree_rootIndex (s : MainWindow) (p : Path) :
    (syncTree s p).rootIndex = s.rootIndex := by
  unfold syncTree; split <;> rfl

theorem syncTree_clipboard (s : MainWindow) (p : Path) :
    (syncTree s p).copyIsCut = s.copyIsCut ∧ (syncTree s p).copiedPath = s.copiedPath := by
  unfold syncTree; split <;> exact ⟨rfl, rfl⟩

theorem upAction_world (s : MainWindow) : (upAction s).world = s.world := by
  unfold upAction
  split
  · rfl
  · split
    · simp [syncTree_world]
    · rfl

theorem upAction_at_root (s : MainWindow) (h : s.rootIndex = some []) : upAction s = s := by
  simp [upAction, h, QDir.cdUp]

theorem upAction_parent (s : MainWindow) (c : Path) (h : s.rootIndex = some c) (hc : c ≠ [])
    (hpar : s.world.fs.isDir c.dropLast = true) :
    (upAction s).rootIndex = some c.dropLast := by
  have hex : s.world.fs.exist c.dropLast = true := by
    rw [FS.isDir_iff] at hpar
    simp [FS.exist, hpar]
  simp [upAction, h, QDir.cdUp, hc, QDir.exists, hpar, syncTree_rootIndex, modelIndex, hex]

theorem upAction_iterate : ∀ (k : Nat) (s : MainWindow) (c : Path), s.rootIndex = some c →
    c.length = k → s.world.fs.isDir c = true → s.world.fs.WF →
    (upAction^[k] s).rootIndex = some [] := by
  intro k
  induction k with
  | zero =>
    intro s c h hl _ _
    have : c = [] := List.length_eq_zero.mp hl
    subst this
    simpa using h
  | succ k ih =>
    intro s c h hl hd hwf
    have hc : c ≠ [] := by intro e; subst e; simp at hl
    have hpar := hwf.dirs_above (List.dropLast_prefix c) hd
    rw [Function.iterate_succ_apply]
    apply ih (upAction s) c.dropLast (upAction_parent s c h hc hpar)
    · simp [hl]
    · rw [upAction_world]; exact hpar
    · rw [upAction_world]; exact hwf

theorem upAction_stable (s : MainWindow) (n : Nat) (h : (upAction^[n] s).rootIndex = some []) :
    ∀ m, n ≤ m → upAction^[m] s = upAction^[n] s := by
  intro m hm
  induction m with
  | zero =>
    have : n = 0 := by omega
    subst this; rfl
  | succ m ih =>
    by_cases he : n = m + 1
    · subst he; rfl
    · have hm' : n ≤ m := by omega
      rw [Function.iterate_succ_apply', ih hm', upAction_at_root _ h]

/-- C6. The Up action. At the root nothing changes (no parent is reported and
the window is as it was). At a directory other than the root, in a
well-formed file system, the new current directory is exactly the parent.
From every directory, as many applications as the path has components
reach the root, and every further application leaves the window as it then
is. -/
theorem C6_navigate_up (s : MainWindow) (c : Path) (hroot : s.rootIndex = some c)
    (hdir : s.world.fs.isDir c = true) (hwf : s.world.fs.WF) :
    (c = [] → QDir.cdUp s.world c = none ∧ upAction s = s) ∧
    (c ≠ [] → (upAction s).rootIndex = some c.dropLast) ∧
    (upAction^[c.length] s).rootIndex = some [] ∧
    (∀ m, c.length ≤ m → upAction^[m + 1] s = upAction^[m] s) := by
  have hit := upAction_iterate c.length s c hroot rfl hdir hwf
  refine ⟨?_, ?_, hit, ?_⟩
  · intro hc
    subst hc
    exact ⟨by simp [QDir.cdUp], upAction_at_root s hroot⟩
  · intro hc
    exact upAction_parent s c hroot hc (hwf.dirs_above (List.dropLast_prefix c) hdir)
  · intro m hm
    rw [upAction_stable s c.length hit (m + 1) (by omega), upAction_stable s c.length hit m hm]

theorem step_mode (P : Provider) (s t : MainWindow) (h : Step P s t)
    (hs : s.copyIsCut = false) : t.copyIsCut = false := by
  cases h with
  | select i => exact hs
  | treeClicked path =>
    simp only [onTreeClicked]
    split
    · exact hs
    · split <;> exact hs
  | doubleClicked path =>
    simp only [tableDoubleClicked]
    split
    · rw [(syncTree_clipboard _ _).1]; exact hs
    · exact hs
  | up =>
    simp only [upAction]
    split
    · exact hs
    · split
      · simp only [(syncTree_clipboard _ _).1]; exact hs
      · exact hs
  | newFolder answer =>
    simp only [createNewFolder]
    split
    · split
      · split <;> exact hs
      · exact hs
    · exact hs
  | rename answer =>
    simp only [renameItem]
    split
    · exact hs
    · split
      · split
        · split <;> exact hs
        · exact hs
      · exact hs
  | delete yes =>
    simp only [deleteItem]
    split
    · exact hs
    · split
      · split
        · split <;> exact hs
        · split <;> exact hs
      · exact hs
  | copy =>
    simp only [copyItem]
    split
    · exact hs
    · rfl
  | paste fuel o _ hp => rw [(pasteItem_clipboard P fuel s o t hp).2]; exact hs
  | properties =>
    simp only [showProperties]
    split <;> exact hs

theorem reachable_mode (P : Provider) (s : MainWindow) (h : Reachable P s) :
    s.copyIsCut = false := by
  induction h with
  | start fs => rfl
  | next s t _ hst ih => exact step_mode P s t hst ih

/-- C10. In every state the window can reach, the clipboard mode is Copy
(`copyIsCut = false`); so a paste that succeeds there ends with the world
exactly as its copy step returned it (the branch that removes the source is
not taken), and the clipboard source still exists afterwards. -/
theorem C10_mode_never_cut (P : Provider) (s : MainWindow) (h : Reachable P s) :
    s.copyIsCut = false ∧
    ∀ fuel t x, s.copiedPath = some x →
      pasteItem P fuel s = some (PasteOutcome.pasted, t) →
      (copyRecursively P fuel s.world x (newPath s x) = some (true, t.world) ∨
        QFile.copy P (if QFile.exists s.world (newPath s x)
          then (QFile.remove P s.world (newPath s x)).2 else s.world) x (newPath s x)
          = (true, t.world)) ∧
      (t.world.fs.stat x).isSome = true := by
  have hmode := reachable_mode P s h
  refine ⟨hmode, ?_⟩
  intro fuel t x hx hp
  simp only [pasteItem, hx, hmode, Bool.false_eq_true, if_false] at hp
  simp only [newPath]
  split at hp
  · rename_i hdir
    split at hp
    · simp at hp
    · simp at hp
    · rename_i w hres
      simp only [Option.some.injEq, Prod.mk.injEq, true_and] at hp
      subst hp
      refine ⟨Or.inl hres, ?_⟩
      have := DirsKept.of_copyRecursively_run P fuel s.world x _ _ hres x hdir
      rw [FS.isDir_iff] at this
      simp [this]
  · split at hp
    · simp at hp
    · rename_i w hres
      simp only [Option.some.injEq, Prod.mk.injEq, true_and] at hp
      subst hp
      refine ⟨Or.inr hres, ?_⟩
      generalize (if QFile.exists s.world (filePath s.rootIndex ++ fileName x)
        then (QFile.remove P s.world (filePath s.rootIndex ++ fileName x)).2
        else s.world) = w0 at hres
      have hok : (QFile.copy P w0 x (filePath s.rootIndex ++ fileName x)).1 = true := by
        rw [hres]
      obtain ⟨c, hc, -, -, -⟩ := QFile.copy_true P w0 x _ hok
      have := QFile.copy_stat_some P w0 x (filePath s.rootIndex ++ fileName x) x (by simp [hc])
      rw [hres] at this
      simp only at this
      simp [this, hc]

theorem FailFast.clean {evs : List Event} (h : FailFast evs true) :
    ∀ e, e ∈ evs → e.fatal = false := by
  intro e he
  obtain ⟨pre, post, rfl⟩ := List.append_of_mem he
  cases hf : e.fatal with
  | false => rfl
  | true => exact absurd (h pre e post rfl hf).2 (by simp)

theorem FailFast.append {evs1 evs2 : List Event} {ok : Bool}
    (h1 : ∀ e, e ∈ evs1 → e.fatal = false) (h2 : FailFast evs2 ok) :
    FailFast (evs1 ++ evs2) ok := by
  intro pre e post heq hf
  rcases List.append_eq_append_iff.mp heq with ⟨a', h3, h4⟩ | ⟨c', h3, h4⟩
  · -- `pre = evs1 ++ a'`, `evs2 = a' ++ e :: post`
    exact h2 a' e post h4 hf
  · -- `evs1 = pre ++ c'`, `e :: post = c' ++ evs2`
    cases c' with
    | nil =>
      simp only [List.nil_append] at h4
      exact h2 [] e post (by simpa using h4.symm) hf
    | cons c cs =>
      simp only [List.cons_append, List.cons.injEq] at h4
      have : e ∈ evs1 := by rw [h3, h4.1]; simp
      rw [h1 e this] at hf
      simp at hf

theorem Run.nothing (T : Path → Prop) (ok : Bool) (w : World) : Run T ok w w :=
  ⟨[], by simp, fun pre e post h => by simp at h, fun s q h => by simp at h⟩

theorem Run.mono {T T' : Path → Prop} {ok : Bool} {w w' : World} (hT : ∀ q, T q → T' q)
    (h : Run T ok w w') : Run T' ok w w' := by
  obtain ⟨evs, hl, hf, hw⟩ := h
  exact ⟨evs, hl, hf, fun s q hm => ⟨hT q (hw s q hm).1, (hw s q hm).2⟩⟩

/-- Two stretches in a row, the first one successful, when the second keeps
the files the first has written. -/
theorem Run.seq {T1 T2 : Path → Prop} {ok : Bool} {w w1 w2 : World}
    (h1 : Run T1 true w w1) (h2 : Run T2 ok w1 w2)
    (hkeep : ∀ q, T1 q → w1.fs.isFile q = true → w2.fs.isFile q = true) :
    Run (fun q => T1 q ∨ T2 q) ok w w2 := by
  obtain ⟨e1, hl1, hf1, hw1⟩ := h1
  obtain ⟨e2, hl2, hf2, hw2⟩ := h2
  refine ⟨e1 ++ e2, by rw [hl2, hl1, List.append_assoc], FailFast.append hf1.clean hf2, ?_⟩
  intro s q hm
  rcases List.mem_append.mp hm with h | h
  · exact ⟨Or.inl (hw1 s q h).1, hkeep q (hw1 s q h).1 (hw1 s q h).2⟩
  · exact ⟨Or.inr (hw2 s q h).1, (hw2 s q h).2⟩

/-- One journal line that is not a successful copy. -/
theorem Run.single (T : Path → Prop) (ok : Bool) (w w' : World) (e : Event)
    (hl : w'.log = w.log ++ [e]) (hf : e.fatal = true → ok = false)
    (hc : ∀ s q, e ≠ ⟨Op.copy s q, true⟩) : Run T ok w w' := by
  refine ⟨[e], hl, ?_, ?_⟩
  · intro pre e' post heq hfat
    cases pre with
    | nil =>
      simp only [List.nil_append, List.cons.injEq] at heq
      exact ⟨heq.2.symm, hf (heq.1 ▸ hfat)⟩
    | cons a as =>
      simp only [List.cons_append, List.cons.injEq] at heq
      have := congrArg List.length heq.2
      simp at this
      omega
  · intro s q hm
    exact absurd (List.mem_singleton.mp hm).symm (hc s q)

theorem Run.by_remove (P : Provider) (T : Path → Prop) (ok : Bool) (w : World) (p : Path) :
    Run T ok w (QFile.remove P w p).2 :=
  Run.single T ok w _ _ (QFile.remove_log P w p) (fun h => by simp [Event.fatal] at h)
    (fun s q h => by simp at h)

theorem Run.by_list (P : Provider) (T : Path → Prop) (ok : Bool) (w : World) (p : Path)
    (f : Filter) : Run T ok w (QDir.entryInfoList P w p f).2 := by
  obtain ⟨b, hb⟩ := QDir.entryInfoList_log P w p f
  exact Run.single T ok w _ _ hb (fun h => by simp [Event.fatal] at h) (fun s q h => by simp at h)

theorem Run.by_mkpath (P : Provider) (T : Path → Prop) (w : World) (p : Path) :
    Run T (QDir.mkpath P w p).1 w (QDir.mkpath P w p).2 :=
  Run.single T _ w _ _ (QDir.mkpath_log P w p) (fun h => by simpa [Event.fatal] using h)
    (fun s q h => by simp at h)

theorem Run.by_copy (P : Provider) (w : World) (s d : Path) :
    Run (fun q => q = d) (QFile.copy P w s d).1 w (QFile.copy P w s d).2 := by
  refine ⟨_, QFile.copy_log P w s d, ?_, ?_⟩
  · intro pre e' post heq hfat
    cases pre with
    | nil =>
      simp only [List.nil_append, List.cons.injEq] at heq
      refine ⟨heq.2.symm, ?_⟩
      rw [← heq.1] at hfat
      simpa [Event.fatal] using hfat
    | cons a as =>
      simp only [List.cons_append, List.cons.injEq] at heq
      have := congrArg List.length heq.2
      simp at this
      omega
  · intro s' q hm
    have he := List.mem_singleton.mp hm
    simp only [Event.mk.injEq, Op.copy.injEq] at he
    obtain ⟨⟨-, rfl⟩, hok⟩ := he
    obtain ⟨c, -, hd, -, hfs⟩ := QFile.copy_true P w s q hok.symm
    have hne : q ≠ [] := by intro e; subst e; simp [FS.stat] at hd
    refine ⟨rfl, ?_⟩
    rw [FS.isFile_iff, hfs]
    exact ⟨c, FS.stat_put_self _ _ hne⟩

theorem Run.then {T1 T2 T : Path → Prop} {ok : Bool} {w w1 w2 : World}
    (h1 : Run T1 true w w1) (h2 : Run T2 ok w1 w2)
    (hkeep : ∀ q, T1 q → w1.fs.isFile q = true → w2.fs.isFile q = true)
    (hT1 : ∀ q, T1 q → T q) (hT2 : ∀ q, T2 q → T q) : Run T ok w w2 :=
  (Run.seq h1 h2 hkeep).mono (fun q h => h.elim (hT1 q) (hT2 q))

theorem copyFiles_off (P : Provider) (src dst : Path) (ns : List String) (w : World) :
    ∀ q, (∀ m, m ∈ ns → q ≠ dst ++ [m]) →
      (copyFiles P src dst ns w).2.fs.stat q = w.fs.stat q :=
  copyFiles_rel P (fun a b => ∀ q, (∀ m, m ∈ ns → q ≠ dst ++ [m]) → b.fs.stat q = a.fs.stat q)
    (fun _ _ _ => rfl) (fun a b c h1 h2 q hq => by rw [h2 q hq, h1 q hq]) src dst ns
    (fun w n hn q hq => QFile.remove_stat_ne P w (hq n hn))
    (fun w n hn q hq => QFile.copy_stat_ne P w _ (hq n hn)) w

/-- The file loop: fail-fast, and what it has written stays. -/
theorem copyFiles_run (P : Provider) (src dst : Path) : ∀ (ns : List String) (w : World),
    ns.Nodup →
    Run (fun q => ∃ n, n ∈ ns ∧ q = dst ++ [n]) (copyFiles P src dst ns w).1 w
      (copyFiles P src dst ns w).2 := by
  intro ns
  induction ns with
  | nil => intro w _; exact Run.nothing _ _ _
  | cons n ns ih =>
    intro w hnd
    have hnd' := List.nodup_cons.mp hnd
    simp only [copyFiles]
    have hrm : Run (fun _ => False) true w
        (if QFile.exists w (dst ++ [n]) then (QFile.remove P w (dst ++ [n])).2 else w) := by
      split
      · exact Run.by_remove P _ _ w _
      · exact Run.nothing _ _ _
    generalize (if QFile.exists w (dst ++ [n]) then (QFile.remove P w (dst ++ [n])).2 else w)
      = w1 at hrm
    have hcp := Run.by_copy P w1 (src ++ [n]) (dst ++ [n])
    rcases hc : QFile.copy P w1 (src ++ [n]) (dst ++ [n]) with ⟨ok2, w2⟩
    rw [hc] at hcp
    simp only at hcp
    have h12 : Run (fun q => q = dst ++ [n]) ok2 w w2 :=
      Run.then hrm hcp (fun q h => h.elim) (fun q h => h.elim) (fun q h => h)
    cases ok2 with
    | false => exact h12.mono (fun q h => ⟨n, List.mem_cons_self _ _, h⟩)
    | true =>
      refine Run.then h12 (ih w2 hnd'.2) ?_ (fun q h => ⟨n, List.mem_cons_self _ _, h⟩)
        (fun q ⟨m, hm, h⟩ => ⟨m, List.mem_cons_of_mem _ hm, h⟩)
      intro q hq hf
      subst hq
      rw [FS.isFile_iff] at hf ⊢
      rw [copyFiles_off P src dst ns w2 _
        (fun m hm => concat_ne_of_name (fun (e : n = m) => hnd'.1 (by rw [e]; exact hm)))]
      exact hf

theorem copyDirs_keep (recurse : World → Path → Path → Option (Bool × World))
    (src dst : Path) (ns : List String)
    (hrec : ∀ n, n ∈ ns → ∀ w r, recurse w (src ++ [n]) (dst ++ [n]) = some r →
      Frame (dst ++ [n]) w r.2)
    (w : World) (r : Bool × World) (h : copyDirs recurse src dst ns w = some r) :
    ∀ q, w.fs.stat q ≠ none → (∀ m, m ∈ ns → ¬ Below (dst ++ [m]) q) →
      r.2.fs.stat q = w.fs.stat q := by
  have := copyDirs_rel
    (fun a b => ∀ q, a.fs.stat q ≠ none → (∀ m, m ∈ ns → ¬ Below (dst ++ [m]) q) →
      b.fs.stat q = a.fs.stat q)
    (fun _ _ _ _ => rfl)
    (fun a b c h1 h2 q hq hm => by
      have e1 := h1 q hq hm
      rw [h2 q (by rw [e1]; exact hq) hm, e1])
    recurse src dst ns
    (fun n hn w r hr q hq hm => hrec n hn w r hr q (hm n hn) (Or.inl hq)) w r h
  exact this

theorem below_child_unique {dst q : Path} {n m : String} (h1 : Below (dst ++ [n]) q)
    (h2 : Below (dst ++ [m]) q) : n = m := by
  have := List.prefix_of_prefix_length_le h1.1 h2.1 (by simp)
  have := this.eq_of_length (by simp)
  have := List.append_cancel_left this
  simpa using this

/-- The subdirectory loop: fail-fast, and what it has written stays. -/
theorem copyDirs_run (recurse : World → Path → Path → Option (Bool × World))
    (src dst : Path) : ∀ (ns : List String), ns.Nodup →
    (∀ n, n ∈ ns → ∀ w r, recurse w (src ++ [n]) (dst ++ [n]) = some r →
      Run (Below (dst ++ [n])) r.1 w r.2 ∧ Frame (dst ++ [n]) w r.2) →
    ∀ w r, copyDirs recurse src dst ns w = some r →
      Run (fun q => ∃ n, n ∈ ns ∧ Below (dst ++ [n]) q) r.1 w r.2 := by
  intro ns
  induction ns with
  | nil =>
    intro _ _ w r h
    simp only [copyDirs, Option.some.injEq] at h
    subst h
    exact Run.nothing _ _ _
  | cons n ns ih =>
    intro hnd hrec w r h
    have hnd' := List.nodup_cons.mp hnd
    simp only [copyDirs] at h
    cases hr : recurse w (src ++ [n]) (dst ++ [n]) with
    | none => simp [hr] at h
    | some r1 =>
      obtain ⟨hrun, -⟩ := hrec n (List.mem_cons_self _ _) w r1 hr
      obtain ⟨ok1, w1⟩ := r1
      cases ok1 with
      | false =>
        simp [hr] at h
        subst h
        exact hrun.mono (fun q hq => ⟨n, List.mem_cons_self _ _, hq⟩)
      | true =>
        simp [hr] at h
        have hrec' : ∀ m, m ∈ ns → ∀ w r, recurse w (src ++ [m]) (dst ++ [m]) = some r →
            Run (Below (dst ++ [m])) r.1 w r.2 ∧ Frame (dst ++ [m]) w r.2 :=
          fun m hm => hrec m (List.mem_cons_of_mem _ hm)
        refine Run.then hrun (ih hnd'.2 hrec' w1 r h) ?_
          (fun q hq => ⟨n, List.mem_cons_self _ _, hq⟩)
          (fun q ⟨m, hm, hq⟩ => ⟨m, List.mem_cons_of_mem _ hm, hq⟩)
        intro q hq hf
        rw [FS.isFile_iff] at hf ⊢
        obtain ⟨c, hc⟩ := hf
        rw [copyDirs_keep recurse src dst ns (fun m hm w r hr => (hrec' m hm w r hr).2) w1 r h q
          (by simp [hc]) (fun m hm hb => hnd'.1 (by rw [below_child_unique hq hb]; exact hm))]
        exact ⟨c, hc⟩

/-- A run of `copyRecursively`: fail-fast, and every file it has written
beneath the destination is there when it returns. -/
theorem copyRecursively_run (P : Provider) : ∀ (fuel : Nat) (w : World) (src dst : Path)
    (r : Bool × World), copyRecursively P fuel w src dst = some r →
    Run (Below dst) r.1 w r.2 := by
  intro fuel
  induction fuel with
  | zero => intro w src dst r h; simp [copyRecursively] at h
  | succ fuel ih =>
    intro w src dst r h
    rcases copyRecursively_cases P fuel w src dst r h with ⟨-, hr⟩ | ⟨-, r0, hr0, h⟩
    · subst hr; exact Run.nothing _ _ _
    · have h0 : Run (fun _ => False) r0.1 w r0.2 := by
        subst hr0; unfold ensureDir; split
        · exact Run.nothing _ _ _
        · exact Run.by_mkpath P _ w dst
      rcases h with ⟨hf0, hr⟩ | ⟨ht0, l1, hl1, r1, hr1, h⟩
      · subst hr
        rw [hf0] at h0
        exact h0.mono (fun q hq => hq.elim)
      · rw [ht0] at h0
        have hl : Run (fun _ => False) true r0.2 l1.2 := by subst hl1; exact Run.by_list P _ _ _ _ _
        have hF : Run (fun q => ∃ n, n ∈ l1.1 ∧ q = dst ++ [n]) r1.1 l1.2 r1.2 := by
          subst hr1
          exact copyFiles_run P src dst l1.1 l1.2 (by subst hl1; exact QDir.entryInfoList_nodup _ _ _ _)
        have h2 : Run (fun q => ∃ n, q = dst ++ [n]) r1.1 w r1.2 :=
          Run.then (Run.then h0 hl (fun q hq => hq.elim) (fun q hq => hq) (fun q hq => hq)) hF
            (fun q hq => hq.elim) (fun q hq => hq.elim) (fun q ⟨n, _, hq⟩ => ⟨n, hq⟩)
        rcases h with ⟨hf1, hr⟩ | ⟨ht1, l2, hl2, h⟩
        · subst hr
          rw [hf1] at h2
          exact h2.mono (fun q ⟨n, hq⟩ => hq ▸ below_concat (List.prefix_refl _) n)
        · rw [ht1] at h2
          have hl' : Run (fun _ => False) true r1.2 l2.2 := by
            subst hl2; exact Run.by_list P _ _ _ _ _
          have hl2fs : l2.2.fs = r1.2.fs := by subst hl2; exact QDir.entryInfoList_fs _ _ _ _
          have h3 : Run (fun q => ∃ n, q = dst ++ [n]) true w l2.2 :=
            Run.then h2 hl' (fun q _ hf => by rw [hl2fs]; exact hf) (fun q hq => hq)
              (fun q hq => hq.elim)
          have hrec : ∀ n, n ∈ l2.1 → ∀ w r,
              copyRecursively P fuel w (src ++ [n]) (dst ++ [n]) = some r →
              Run (Below (dst ++ [n])) r.1 w r.2 ∧ Frame (dst ++ [n]) w r.2 :=
            fun n _ w r hr => ⟨ih w _ _ r hr, Frame.of_copyRecursively P fuel w _ _ r hr⟩
          have hD := copyDirs_run (copyRecursively P fuel) src dst l2.1
            (by subst hl2; exact QDir.entryInfoList_nodup _ _ _ _) hrec l2.2 r h
          refine Run.then h3 hD ?_
            (fun q ⟨n, hq⟩ => hq ▸ below_concat (List.prefix_refl _) n)
            (fun q ⟨n, _, hq⟩ => below_of_below_concat hq)
          rintro q ⟨n, rfl⟩ hf
          rw [FS.isFile_iff] at hf ⊢
          obtain ⟨c, hc⟩ := hf
          rw [copyDirs_keep (copyRecursively P fuel) src dst l2.1
            (fun m hm w r hr => (hrec m hm w r hr).2) l2.2 r h _ (by simp [hc])
            (fun m _ hb => by
              have := hb.1.length_le
              have hne := hb.2
              have := hb.1.eq_of_length (by simp)
              exact hne this)]
          exact ⟨c, hc⟩

theorem observe_some {r : Option (PasteOutcome × MainWindow)} {o : PasteOutcome} {fs : FS}
    (h : observe r = some (o, fs)) : ∃ t, r = some (o, t) ∧ t.world.fs = fs := by
  cases r with
  | none => simp [observe] at h
  | some x =>
    obtain ⟨o', t⟩ := x
    simp only [observe, Option.map_some', Option.some.injEq, Prod.mk.injEq] at h
    exact ⟨t, by rw [h.1], h.2⟩

theorem stat_append_off (a b : FS) (q : Path) (h : (a ++ b).stat q ≠ a.stat q) :
    q ∈ b.map (fun x => x.1) := by
  by_cases hq : q = []
  · simp [FS.stat, hq] at h
  · simp only [FS.stat, hq, if_false, FS.find_append] at h
    cases ha : a.find q with
    | some e => simp [ha] at h
    | none =>
      simp only [ha] at h
      cases hb : b.find q with
      | none => exact absurd hb h
      | some e => exact List.mem_map.mpr ⟨(q, e), FS.mem_of_find hb, rfl⟩

theorem no_files (fs : FS) (h : fs.all (fun x => decide (x.2 = Entry.dir)) = true) (p : Path) :
    fs.isFile p = false := by
  cases hf : fs.isFile p with
  | false => rfl
  | true =>
    obtain ⟨c, hc⟩ := FS.isFile_iff.mp hf
    have hp : p ≠ [] := by intro e; subst e; simp [FS.stat] at hc
    have hm := FS.mem_of_stat hc hp
    have := List.all_eq_true.mp h _ hm
    simp at this

/-! ## The claims on concrete inputs -/

/-- C4, as stated, fails: after `copy(/a)` and `paste(/b)` on the scenario's
tree, with every provider call succeeding, neither `/b/1.txt` nor
`/b/sub/2.txt` exists. -/
theorem C4_counterexample :
    ∃ t, pasteItem Provider.reliable 4 scenarioPaste = some (PasteOutcome.pasted, t) ∧
      t.world.fs.stat ["b", "1.txt"] = none ∧ t.world.fs.stat ["b", "sub", "2.txt"] = none := by
  obtain ⟨t, ht, hfs⟩ := observe_some
    (rfl : observe (pasteItem Provider.reliable 4 scenarioPaste)
      = some (PasteOutcome.pasted, scenarioFS ++ scenarioAdded))
  exact ⟨t, ht, by rw [hfs]; decide, by rw [hfs]; decide⟩

/-- C4 (amended). On the scenario's tree (`/a/1.txt`, `/a/sub/2.txt`, no `/b`),
`copy(/a)` then `paste(/b)` on a provider that refuses nothing returns
success for every budget of at least two nested calls; afterwards
`/b/a/1.txt` and `/b/a/sub/2.txt` exist with the contents of `/a/1.txt` and
`/a/sub/2.txt`, and every path whose entry has changed lies beneath `/b`, so
`/a` is unchanged. -/
theorem C4_two_level_scenario (k : Nat) :
    ∃ t, pasteItem Provider.reliable (k + 2) scenarioPaste = some (PasteOutcome.pasted, t) ∧
      t.world.fs.stat ["b", "a", "1.txt"] = some (Entry.file "one") ∧
      scenarioPaste.world.fs.stat ["a", "1.txt"] = some (Entry.file "one") ∧
      t.world.fs.stat ["b", "a", "sub", "2.txt"] = some (Entry.file "two") ∧
      scenarioPaste.world.fs.stat ["a", "sub", "2.txt"] = some (Entry.file "two") ∧
      (∀ q, t.world.fs.stat q ≠ scenarioPaste.world.fs.stat q → ["b"] <+: q) := by
  obtain ⟨t, ht, hfs⟩ := observe_some
    (rfl : observe (pasteItem Provider.reliable (k + 2) scenarioPaste)
      = some (PasteOutcome.pasted, scenarioFS ++ scenarioAdded))
  refine ⟨t, ht, by rw [hfs]; decide, by decide, by rw [hfs]; decide, by decide, ?_⟩
  intro q hq
  rw [hfs] at hq
  have hm := stat_append_off scenarioFS scenarioAdded q hq
  simp only [scenarioAdded, List.map_cons, List.map_nil, List.mem_cons, List.mem_singleton,
    List.not_mem_nil, or_false] at hm
  rcases hm with rfl | rfl | rfl | rfl | rfl <;> decide

/-- C9 fails on the code: with `/x/f` on the clipboard and no `/x/f` in the
file system, a paste into `/d`, which holds a file `f`, takes the error
return and has removed `/d/f`. -/
theorem C9_missing_source_removes_target (fuel : Nat) :
    ∃ t, pasteItem Provider.reliable fuel missingSourcePaste = some (PasteOutcome.failed, t) ∧
      missingSourcePaste.world.fs.stat ["x", "f"] = none ∧
      missingSourcePaste.world.fs.stat ["d", "f"] = some (Entry.file "data") ∧
      t.world.fs.stat ["d", "f"] = none := by
  obtain ⟨t, ht, hfs⟩ := observe_some
    (rfl : observe (pasteItem Provider.reliable fuel missingSourcePaste)
      = some (PasteOutcome.failed, [(["d"], Entry.dir)]))
  exact ⟨t, ht, by decide, by decide, by rw [hfs]; decide⟩

/-- C2 fails on the code: the window reached from start-up by a double click
on `/d`, selecting `/d/f` and Copy is in mode Copy; a paste there, for every
budget and with a provider that refuses nothing, takes the error return,
and `/d/f`, the clipboard source, is gone. -/
theorem C2_self_paste_loses_file (fuel : Nat) :
    Reachable Provider.reliable selfPasteFile ∧
    selfPasteFile.copiedPath = some ["d", "f"] ∧ selfPasteFile.copyIsCut = false ∧
    newPath selfPasteFile ["d", "f"] = ["d", "f"] ∧
    ∃ t, pasteItem Provider.reliable fuel selfPasteFile = some (PasteOutcome.failed, t) ∧
      selfPasteFile.world.fs.stat ["d", "f"] = some (Entry.file "data") ∧
      t.world.fs.stat ["d", "f"] = none := by
  refine ⟨?_, by decide, by decide, by decide, ?_⟩
  · exact Reachable.next _ _ (Reachable.next _ _ (Reachable.next _ _
      (Reachable.start oneFileFS) (Step.doubleClicked _ ["d"]))
      (Step.select _ (some ["d", "f"]))) (Step.copy _)
  · obtain ⟨t, ht, hfs⟩ := observe_some
      (rfl : observe (pasteItem Provider.reliable fuel selfPasteFile)
        = some (PasteOutcome.failed, [(["d"], Entry.dir)]))
    exact ⟨t, ht, by decide, by rw [hfs]; decide⟩

/-- C5 fails on the code: the window reached from start-up by a double click
on `/tmp`, selecting the directory `/tmp/Foo`, which holds a file `f`, and
Copy; a paste there writes to `/tmp/Foo` itself, takes the error return and
has removed `/tmp/Foo/f`, so the file system is not what it was. -/
theorem C5_self_paste_loses_content :
    Reachable Provider.reliable (selfPasteDir fooFS) ∧
    (selfPasteDir fooFS).copiedPath = some ["tmp", "Foo"] ∧
    newPath (selfPasteDir fooFS) ["tmp", "Foo"] = ["tmp", "Foo"] ∧
    ∀ k, ∃ t, pasteItem Provider.reliable (k + 1) (selfPasteDir fooFS)
        = some (PasteOutcome.failed, t) ∧
      (selfPasteDir fooFS).world.fs.stat ["tmp", "Foo", "f"] = some (Entry.file "data") ∧
      t.world.fs.stat ["tmp", "Foo", "f"] = none ∧
      t.world.fs ≠ (selfPasteDir fooFS).world.fs := by
  refine ⟨?_, by decide, by decide, fun k => ?_⟩
  · exact Reachable.next _ _ (Reachable.next _ _ (Reachable.next _ _
      (Reachable.start fooFS) (Step.doubleClicked _ ["tmp"]))
      (Step.select _ (some ["tmp", "Foo"]))) (Step.copy _)
  · obtain ⟨t, ht, hfs⟩ := observe_some
      (rfl : observe (pasteItem Provider.reliable (k + 1) (selfPasteDir fooFS))
        = some (PasteOutcome.failed, [(["tmp"], Entry.dir), (["tmp", "Foo"], Entry.dir)]))
    exact ⟨t, ht, by decide, by rw [hfs]; decide, by rw [hfs]; decide⟩

/-- C8. `copyRecursively` is fail-fast and never undoes its work. A call whose
source and destination do not overlap returns (for every budget above the
depth of the store). Whenever a call returns, its journal lines extend the
journal; a directory creation or a file copy that failed is the last line,
nothing is listed, created, removed or copied after it, and the call
reports failure; and every file the call has copied is a regular file in
the file system it leaves. -/
theorem C8_copy_fail_fast (P : Provider) (fuel : Nat) (w : World) (src dst : Path) :
    (¬ src <+: dst → ¬ dst <+: src → w.fs.depth + 2 ≤ fuel →
      ∃ res, copyRecursively P fuel w src dst = some res) ∧
    (∀ ok w', copyRecursively P fuel w src dst = some (ok, w') →
      ∃ evs, w'.log = w.log ++ evs ∧
        (∀ pre e post, evs = pre ++ e :: post → e.fatal = true → post = [] ∧ ok = false) ∧
        (∀ s q, (⟨Op.copy s q, true⟩ : Event) ∈ evs → w'.fs.isFile q = true)) := by
  refine ⟨fun h1 h2 hf => copyRecursively_returns P (w.fs.depth + 1) fuel w src dst (by omega)
    h1 h2 (depth_bound _ src), ?_⟩
  intro ok w' h
  obtain ⟨evs, hl, hff, hw⟩ := copyRecursively_run P fuel w src dst (ok, w') h
  exact ⟨evs, hl, hff, fun s q hm => (hw s q hm).2⟩

/-- C8 on a run that fails half-way: `/a/f` is written to `/b/a/f`, the copy of
`/a/g` fails, the call reports failure with that line last, and `/b/a/f` is
there. -/
theorem C8_witness :
    ∃ evs, (⟨blockedFS ++ [(["b", "a", "f"], Entry.file "1")],
        [⟨Op.list ["a"], true⟩, ⟨Op.copy ["a", "f"] ["b", "a", "f"], true⟩,
         ⟨Op.remove ["b", "a", "g"], false⟩, ⟨Op.copy ["a", "g"] ["b", "a", "g"], false⟩]⟩
          : World).log = ([] : List Event) ++ evs ∧
      (∀ pre e post, evs = pre ++ e :: post → e.fatal = true → post = [] ∧ false = false) ∧
      (∀ s q, (⟨Op.copy s q, true⟩ : Event) ∈ evs →
        (⟨blockedFS ++ [(["b", "a", "f"], Entry.file "1")],
        [⟨Op.list ["a"], true⟩, ⟨Op.copy ["a", "f"] ["b", "a", "f"], true⟩,
         ⟨Op.remove ["b", "a", "g"], false⟩, ⟨Op.copy ["a", "g"] ["b", "a", "g"], false⟩]⟩
          : World).fs.isFile q = true) :=
  (C8_copy_fail_fast Provider.reliable 3 ⟨blockedFS, []⟩ ["a"] ["b", "a"]).2 false _ rfl

/-- C1, as stated, fails: `/a` holds the hidden file `.h`; after Copy on `/a`
and a successful paste into `/b`, with every provider call succeeding,
`/b/a/1.txt` is there and `/b/a/.h` is not. -/
theorem C1_counterexample :
    ∃ t, pasteItem Provider.reliable 4 hiddenPaste = some (PasteOutcome.pasted, t) ∧
      hiddenPaste.world.fs.stat ["a", ".h"] = some (Entry.file "dot") ∧
      t.world.fs.stat ["b", "a", "1.txt"] = some (Entry.file "one") ∧
      t.world.fs.stat ["b", "a", ".h"] = none := by
  obtain ⟨t, ht, hfs⟩ := observe_some
    (rfl : observe (pasteItem Provider.reliable 4 hiddenPaste)
      = some (PasteOutcome.pasted,
          hiddenFS ++ [(["b", "a"], Entry.dir), (["b", "a", "1.txt"], Entry.file "one")]))
  exact ⟨t, ht, by decide, by rw [hfs]; decide, by rw [hfs]; decide⟩

/-- C1 (amended) on `/a`, which holds a hidden file, pasted into the empty
directory `/b`. -/
theorem C1_witness :
    ∃ t, pasteItem Provider.reliable 4 hiddenPaste = some (PasteOutcome.pasted, t) ∧
      (∀ r, t.world.fs.stat (["b"] ++ fileName ["a"] ++ r) =
        if r.any hidden then none else hiddenPaste.world.fs.stat (["a"] ++ r)) ∧
      (∀ q, ¬ (["b"] ++ fileName ["a"]) <+: q →
        t.world.fs.stat q = hiddenPaste.world.fs.stat q) :=
  C1_directory_copy_paste_roundtrip Provider.reliable (fun _ _ => rfl) hiddenStart
    hiddenPaste ["a"] ["b"] rfl rfl rfl rfl (by decide) (by decide) (by decide)
    (by decide) (by decide) 4 (by decide)

/-- C3 on `/a/1.txt` pasted into the empty directory `/b`. -/
theorem C3_witness :
    ∃ t, pasteItem Provider.reliable 0 (roundTripPaste ["a", "1.txt"])
        = some (PasteOutcome.pasted, t) ∧
      t.world.fs.stat ["a", "1.txt"] = (roundTripPaste ["a", "1.txt"]).world.fs.stat ["a", "1.txt"] ∧
      t.world.fs.stat (["b"] ++ fileName ["a", "1.txt"])
        = (roundTripPaste ["a", "1.txt"]).world.fs.stat ["a", "1.txt"] ∧
      (∀ q, q ≠ ["b"] ++ fileName ["a", "1.txt"] →
        t.world.fs.stat q = (roundTripPaste ["a", "1.txt"]).world.fs.stat q) :=
  C3_file_copy_paste Provider.reliable (roundTripStart ["a", "1.txt"])
    (roundTripPaste ["a", "1.txt"]) ["a", "1.txt"] ["b"] rfl rfl rfl rfl (by decide) (by decide)
    (by decide) rfl 0

/-- The freshly created empty directory `/tmp/Foo`, copied and pasted into
`/tmp`: nothing changes. -/
theorem self_paste_empty_directory :
    ∃ t, pasteItem Provider.reliable 4 (selfPasteDir emptyFooFS) = some (PasteOutcome.pasted, t) ∧
      t.world.fs = (selfPasteDir emptyFooFS).world.fs :=
  self_paste_without_files Provider.reliable
    { tableDoubleClicked (MainWindow.init ⟨emptyFooFS, []⟩) ["tmp"] with
      currentIndex := some ["tmp", "Foo"] }
    (selfPasteDir emptyFooFS) ["tmp", "Foo"] rfl rfl rfl (by decide) (by decide)
    (fun r => no_files emptyFooFS (by decide) _) 4 (by decide)

/-- C6 from `/a/sub` on the scenario's tree. -/
theorem C6_witness :
    ((["a", "sub"] : Path) = [] →
      QDir.cdUp (⟨scenarioFS, []⟩ : World) ["a", "sub"] = none ∧
      upAction { MainWindow.init ⟨scenarioFS, []⟩ with rootIndex := some ["a", "sub"] }
        = { MainWindow.init ⟨scenarioFS, []⟩ with rootIndex := some ["a", "sub"] }) ∧
    ((["a", "sub"] : Path) ≠ [] →
      (upAction { MainWindow.init ⟨scenarioFS, []⟩ with rootIndex := some ["a", "sub"] }).rootIndex
        = some (["a", "sub"] : Path).dropLast) ∧
    (upAction^[(["a", "sub"] : Path).length]
      { MainWindow.init ⟨scenarioFS, []⟩ with rootIndex := some ["a", "sub"] }).rootIndex
        = some [] ∧
    (∀ m, (["a", "sub"] : Path).length ≤ m →
      upAction^[m + 1] { MainWindow.init ⟨scenarioFS, []⟩ with rootIndex := some ["a", "sub"] }
        = upAction^[m] { MainWindow.init ⟨scenarioFS, []⟩ with rootIndex := some ["a", "sub"] }) :=
  C6_navigate_up { MainWindow.init ⟨scenarioFS, []⟩ with rootIndex := some ["a", "sub"] }
    ["a", "sub"] rfl (by decide) (by decide)

/-- C10 in the state reached by selecting `/a` and invoking Copy. -/
theorem C10_witness :
    (copyItem scenarioStart).copyIsCut = false ∧
    ∀ fuel t x, (copyItem scenarioStart).copiedPath = some x →
      pasteItem Provider.reliable fuel (copyItem scenarioStart) = some (PasteOutcome.pasted, t) →
      (copyRecursively Provider.reliable fuel (copyItem scenarioStart).world x
          (newPath (copyItem scenarioStart) x) = some (true, t.world) ∨
        QFile.copy Provider.reliable
          (if QFile.exists (copyItem scenarioStart).world (newPath (copyItem scenarioStart) x)
            then (QFile.remove Provider.reliable (copyItem scenarioStart).world
              (newPath (copyItem scenarioStart) x)).2
            else (copyItem scenarioStart).world) x (newPath (copyItem scenarioStart) x)
          = (true, t.world)) ∧
      (t.world.fs.stat x).isSome = true :=
  C10_mode_never_cut Provider.reliable (copyItem scenarioStart)
    (Reachable.next _ _ (Reachable.next _ _ (Reachable.start scenarioFS)
      (Step.select _ (some ["a"]))) (Step.copy _))

/-- C7 on the paste of the scenario's tree into `/b`. -/
theorem C7_witness :
    ((roundTripPaste ["a"]).copiedPath = none →
      pasteItem Provider.reliable 5 (roundTripPaste ["a"])
        = some (PasteOutcome.emptyClipboard, roundTripPaste ["a"])) ∧
    (∀ o t, pasteItem Provider.reliable 5 (roundTripPaste ["a"]) = some (o, t) →
      t.copiedPath = (roundTripPaste ["a"]).copiedPath ∧
      t.copyIsCut = (roundTripPaste ["a"]).copyIsCut ∧
      ∀ fuel2, (pasteItem Provider.reliable fuel2 t).isSome = true →
        ∃ o2 t2, pasteItem Provider.reliable fuel2 t = some (o2, t2) ∧
          t2.copiedPath = (roundTripPaste ["a"]).copiedPath ∧
          t2.copyIsCut = (roundTripPaste ["a"]).copyIsCut) :=
  C7_paste_keeps_clipboard Provider.reliable 5 (roundTripPaste ["a"])

end FileExplorer
